import Mathlib

/-!
Verification development for the federated-learning core of the Muneem
repository (`backend/app/ai/federated/`): the aggregator
(`aggregator.py`), the local trainer (`trainer.py`) and the secure
sync channel (`secure_sync.py`).

Numeric values that Python represents as floats are modelled as exact
rationals (`ℚ`); where float semantics matter (division by zero
producing IEEE non-finite values) an explicit value type with
`nan`/`inf` constructors is used.  Stateful Python objects are
modelled by explicit state passing: a method that mutates `self`
becomes a function from the old state to the new state, and a raised
exception becomes an `Except`/`Option` error value.  The state
returned alongside an error is the object state after the failed call
(in the source every fallible step happens before any mutation of
`self`, so that state equals the input state).
-/

namespace Muneem

/-! ## Aggregator data model (`aggregator.py`)

A client update is a dict with a `"weights"` entry (modelled by
`Option`, `none` = key absent); the weights dict may omit any of the
four fields, which `dict.get` then replaces by a default. -/

/-- The `"weights"` dictionary of one client update.  Each field is
`none` when the corresponding key is absent from the dict. -/
structure ClientWeights where
  anomaly_threshold : Option ℚ
  spending_patterns : Option (List ℚ)
  category_weights : Option (List ℚ)
  temporal_factors : Option (List ℚ)
deriving Repr, DecidableEq

/-- One element of the `client_updates` list passed to
`FederatedAggregator.aggregate_updates`; `weights = none` models a
dict without a `"weights"` key. -/
structure ClientUpdate where
  weights : Option ClientWeights
deriving Repr, DecidableEq

/-- The global model dictionary built by `_initialize_global_model` /
`aggregate_updates`.  `version` models the string `f"1.{minor}.0"` as
the triple (major, minor, patch); `aggregated_at` models the timestamp
string as an abstract `Nat`; `client_count` is `none` for the initial
model (the initial dict has no `"client_count"` key). -/
structure GlobalModel where
  anomaly_threshold : ℚ
  spending_patterns : List ℚ
  category_weights : List ℚ
  temporal_factors : List ℚ
  version : Nat × Nat × Nat
  aggregated_at : Nat
  update_count : Nat
  client_count : Option Nat
deriving Repr, DecidableEq

/-- One entry of `self.update_history`. -/
structure HistoryEntry where
  timestamp : Nat
  client_count : Nat
  version : Nat × Nat × Nat
deriving Repr, DecidableEq

/-- The mutable state of a `FederatedAggregator` instance:
`self.global_model` and `self.update_history`. -/
structure AggregatorState where
  global_model : GlobalModel
  update_history : List HistoryEntry
deriving Repr, DecidableEq

/-- `FederatedAggregator._initialize_global_model`.  The three
placeholder vectors are produced by `np.random.random` in the source;
they are taken as parameters here (any values), as is the creation
timestamp. -/
def initializeGlobalModel (sp cw tf : List ℚ) (t0 : Nat) : GlobalModel :=
  { anomaly_threshold := 1/2
    spending_patterns := sp
    category_weights := cw
    temporal_factors := tf
    version := (1, 0, 0)
    aggregated_at := t0
    update_count := 0
    client_count := none }

/-- `FederatedAggregator.__init__`: fresh global model, empty history. -/
def FederatedAggregator.mkInit (sp cw tf : List ℚ) (t0 : Nat) : AggregatorState :=
  { global_model := initializeGlobalModel sp cw tf t0
    update_history := [] }

/-- Errors raised inside `aggregate_updates`: the explicit
`ValueError("Invalid update format")`, and the `ValueError` numpy
raises when `np.mean(rows, axis=0)` is given rows of inhomogeneous
lengths. -/
inductive AggError
  | invalidFormat
  | inhomogeneousShape
deriving Repr, DecidableEq

/-- `np.mean` of a list of scalars (the `thresholds` list, nonempty
whenever the batch is). -/
def npMean (xs : List ℚ) : ℚ := xs.sum / xs.length

/-- `np.mean(rows, axis=0)` on a list of rows: numpy raises
`ValueError` when the rows do not all have the same length
(inhomogeneous shape); otherwise it returns the element-wise
(column-wise) arithmetic mean. -/
def npMeanAxis0 (rows : List (List ℚ)) : Except AggError (List ℚ) :=
  match rows with
  | [] => .error .inhomogeneousShape
  | r :: rs =>
    if rs.all (fun s => s.length == r.length) then
      .ok ((List.range r.length).map (fun i =>
        ((r :: rs).map (fun s => s.getD i 0)).sum / ((r :: rs).length : ℚ)))
    else .error .inhomogeneousShape

/-- The empty `ClientWeights` dict (used only as a `getD` fallback;
never reached when the `"weights"` key is present). -/
def emptyWeights : ClientWeights := ⟨none, none, none, none⟩

/-- `FederatedAggregator.aggregate_updates`.  Returns the state of the
aggregator after the call together with the outcome.  In the source
every fallible step (the format check and the three `np.mean(...,
axis=0)` calls) happens before `self.update_history.append` and the
assignment to `self.global_model`, so on any error the state is the
input state.  On an empty batch the source returns
`self.global_model` unchanged without raising.  `now` models
`datetime.now().isoformat()`. -/
def aggregate_updates (now : Nat) (st : AggregatorState)
    (client_updates : List ClientUpdate) :
    AggregatorState × Except AggError GlobalModel :=
  if client_updates.isEmpty then (st, .ok st.global_model)
  else if ¬ client_updates.all (fun u => u.weights.isSome) then
    (st, .error .invalidFormat)
  else
    let client_weights := client_updates.map (fun u => u.weights.getD emptyWeights)
    let thresholds := client_weights.map (fun w => w.anomaly_threshold.getD (1/2))
    let anomaly := npMean thresholds
    match npMeanAxis0 (client_weights.map
        (fun w => w.spending_patterns.getD (List.replicate 10 0))) with
    | .error e => (st, .error e)
    | .ok sp =>
      match npMeanAxis0 (client_weights.map
          (fun w => w.category_weights.getD (List.replicate 5 0))) with
      | .error e => (st, .error e)
      | .ok cw =>
        match npMeanAxis0 (client_weights.map
            (fun w => w.temporal_factors.getD (List.replicate 7 0))) with
        | .error e => (st, .error e)
        | .ok tf =>
          let version := (1, st.update_history.length + 1, 0)
          let model : GlobalModel :=
            { anomaly_threshold := anomaly
              spending_patterns := sp
              category_weights := cw
              temporal_factors := tf
              version := version
              aggregated_at := now
              update_count := client_updates.length
              client_count := some client_updates.length }
          let entry : HistoryEntry :=
            { timestamp := now
              client_count := client_updates.length
              version := version }
          ({ global_model := model
             update_history := st.update_history ++ [entry] }, .ok model)

/-- The `"weights"` dict of an update (total accessor; callers below
always have the key present). -/
def updWeights (u : ClientUpdate) : ClientWeights := u.weights.getD emptyWeights

/-- `w.get("anomaly_threshold", 0.5)` for one update. -/
def updThreshold (u : ClientUpdate) : ℚ := (updWeights u).anomaly_threshold.getD (1/2)

/-- `w.get("spending_patterns", [0]*10)` for one update. -/
def updSpendingRow (u : ClientUpdate) : List ℚ :=
  (updWeights u).spending_patterns.getD (List.replicate 10 0)

/-- `w.get("category_weights", [0]*5)` for one update. -/
def updCategoryRow (u : ClientUpdate) : List ℚ :=
  (updWeights u).category_weights.getD (List.replicate 5 0)

/-- `w.get("temporal_factors", [0]*7)` for one update. -/
def updTemporalRow (u : ClientUpdate) : List ℚ :=
  (updWeights u).temporal_factors.getD (List.replicate 7 0)

/-- Point-free unfolding of `updThreshold` (for rewriting under `List.map`). -/
theorem updThreshold_eq :
    updThreshold = fun u => ((u.weights.getD emptyWeights).anomaly_threshold.getD (1/2)) :=
  rfl

/-- Point-free unfolding of `updSpendingRow`. -/
theorem updSpendingRow_eq :
    updSpendingRow =
      fun u => ((u.weights.getD emptyWeights).spending_patterns.getD (List.replicate 10 0)) :=
  rfl

/-- Point-free unfolding of `updCategoryRow`. -/
theorem updCategoryRow_eq :
    updCategoryRow =
      fun u => ((u.weights.getD emptyWeights).category_weights.getD (List.replicate 5 0)) :=
  rfl

/-- Point-free unfolding of `updTemporalRow`. -/
theorem updTemporalRow_eq :
    updTemporalRow =
      fun u => ((u.weights.getD emptyWeights).temporal_factors.getD (List.replicate 7 0)) :=
  rfl

/-- On rows of one common length `L`, `npMeanAxis0` succeeds and
returns the column means. -/
theorem npMeanAxis0_ok_of_uniform (rows : List (List ℚ)) (L : Nat)
    (hne : rows ≠ []) (hlen : ∀ r ∈ rows, r.length = L) :
    npMeanAxis0 rows = .ok ((List.range L).map (fun i =>
      (rows.map (fun s => s.getD i 0)).sum / (rows.length : ℚ))) := by
  cases rows with
  | nil => exact absurd rfl hne
  | cons r rs =>
    have hr : r.length = L := hlen r (List.mem_cons_self r rs)
    have hall : rs.all (fun s => s.length == L) = true := by
      rw [List.all_eq_true]
      intro s hs
      have := hlen s (List.mem_cons_of_mem _ hs)
      simp [this]
    simp only [npMeanAxis0, hr, hall, if_true]

/-- `npMeanAxis0` over a mapped batch, uniform-length version. -/
theorem npMeanAxis0_map_ok (f : ClientUpdate → List ℚ) (batch : List ClientUpdate)
    (L : Nat) (hne : batch ≠ []) (hlen : ∀ u ∈ batch, (f u).length = L) :
    npMeanAxis0 (batch.map f) = .ok ((List.range L).map (fun i =>
      (batch.map (fun u => (f u).getD i 0)).sum / (batch.length : ℚ))) := by
  have h := npMeanAxis0_ok_of_uniform (batch.map f) L
    (by simpa using hne) (by simpa using hlen)
  simpa [List.map_map, Function.comp] using h

/-- The success path of `aggregate_updates`: on a non-empty batch in
which every update has a `"weights"` dict and each of the three vector
fields (after `dict.get` defaults) has one common length per field,
the call succeeds and the resulting state and model are as computed in
the source. -/
theorem aggregate_uniform_eq (now : Nat) (st : AggregatorState)
    (batch : List ClientUpdate) (L1 L2 L3 : Nat)
    (hne : batch ≠ [])
    (hw : batch.all (fun u => u.weights.isSome) = true)
    (h1 : ∀ u ∈ batch, (updSpendingRow u).length = L1)
    (h2 : ∀ u ∈ batch, (updCategoryRow u).length = L2)
    (h3 : ∀ u ∈ batch, (updTemporalRow u).length = L3) :
    aggregate_updates now st batch =
      (let version := (1, st.update_history.length + 1, 0)
       let model : GlobalModel :=
        { anomaly_threshold := (batch.map updThreshold).sum / (batch.length : ℚ)
          spending_patterns := (List.range L1).map (fun i =>
            (batch.map (fun u => (updSpendingRow u).getD i 0)).sum / (batch.length : ℚ))
          category_weights := (List.range L2).map (fun i =>
            (batch.map (fun u => (updCategoryRow u).getD i 0)).sum / (batch.length : ℚ))
          temporal_factors := (List.range L3).map (fun i =>
            (batch.map (fun u => (updTemporalRow u).getD i 0)).sum / (batch.length : ℚ))
          version := version
          aggregated_at := now
          update_count := batch.length
          client_count := some batch.length }
       ({ global_model := model
          update_history := st.update_history ++
            [{ timestamp := now, client_count := batch.length, version := version }] },
        .ok model)) := by
  have hemp : batch.isEmpty = false := by
    cases batch with
    | nil => exact absurd rfl hne
    | cons a l => rfl
  unfold aggregate_updates
  rw [hemp]
  simp only [Bool.false_eq_true, if_false, hw, not_true, if_neg, List.map_map]
  rw [npMeanAxis0_map_ok _ batch L1 hne (by intro u hu; simpa [updSpendingRow, updWeights] using h1 u hu)]
  rw [npMeanAxis0_map_ok _ batch L2 hne (by intro u hu; simpa [updCategoryRow, updWeights] using h2 u hu)]
  rw [npMeanAxis0_map_ok _ batch L3 hne (by intro u hu; simpa [updTemporalRow, updWeights] using h3 u hu)]
  simp [npMean, Function.comp_def, updThreshold_eq, updSpendingRow_eq, updCategoryRow_eq,
    updTemporalRow_eq]

/-- A concrete freshly initialized aggregator (zero placeholder
vectors, creation time 0), used for closed statements. -/
def sampleInitState : AggregatorState :=
  FederatedAggregator.mkInit (List.replicate 10 0) (List.replicate 5 0)
    (List.replicate 7 0) 0

/-- **C1 (counterexample).**  On the empty batch `aggregate_updates`
does not raise any error: it returns `.ok` with the current global
model and the state unchanged, contradicting the claim that
`aggregate([])` fails with `ValidationError`. -/
theorem aggregate_empty_no_error :
    aggregate_updates 0 sampleInitState [] =
      (sampleInitState, .ok sampleInitState.global_model) := by
  rfl

/-- **C1 (amended).**  Calling `aggregate_updates` on an empty batch
raises no error: it returns the current global model, and the
aggregator state — current weights, `update_count`, and
`update_history` — is left completely unchanged. -/
theorem aggregate_empty_returns_state_unchanged (now : Nat) (st : AggregatorState) :
    aggregate_updates now st [] = (st, .ok st.global_model) := by
  rfl

/-- Element `i` (in range) of a map over `List.range`. -/
theorem getD_range_map {α : Type} (f : Nat → α) (d : α) {L i : Nat} (h : i < L) :
    ((List.range L).map f).getD i d = f i := by
  rw [List.getD_eq_getElem _ _ (by simp [h])]
  simp

/-- The fixed 10/5/7 schema from the spec: the update has a
`"weights"` dict containing all four fields with vector lengths
10, 5 and 7. -/
def updateSchemaOk (u : ClientUpdate) : Bool :=
  match u.weights with
  | none => false
  | some w =>
    w.anomaly_threshold.isSome &&
    (match w.spending_patterns with | some l => l.length == 10 | none => false) &&
    (match w.category_weights with | some l => l.length == 5 | none => false) &&
    (match w.temporal_factors with | some l => l.length == 7 | none => false)

/-- Unpacking `updateSchemaOk`. -/
theorem updateSchemaOk_spec {u : ClientUpdate} (h : updateSchemaOk u = true) :
    u.weights.isSome = true ∧ (updSpendingRow u).length = 10 ∧
    (updCategoryRow u).length = 5 ∧ (updTemporalRow u).length = 7 := by
  obtain ⟨ow⟩ := u
  cases ow with
  | none => simp [updateSchemaOk] at h
  | some w =>
    obtain ⟨ot, osp, ocw, otf⟩ := w
    cases osp with
    | none => simp [updateSchemaOk] at h
    | some lsp =>
      cases ocw with
      | none => simp [updateSchemaOk] at h
      | some lcw =>
        cases otf with
        | none => simp [updateSchemaOk] at h
        | some ltf =>
          simp only [updateSchemaOk, Bool.and_eq_true, beq_iff_eq] at h
          refine ⟨rfl, ?_, ?_, ?_⟩ <;>
            simp [updSpendingRow, updCategoryRow, updTemporalRow, updWeights,
              h.1.1.2, h.1.2, h.2]

/-- **C5.**  On a non-empty, schema-valid batch, `aggregate_updates`
succeeds and the new global model is the unweighted element-wise
arithmetic mean across clients of each vector field and of the scalar
`anomaly_threshold`. -/
theorem aggregate_elementwise_mean (now : Nat) (st : AggregatorState)
    (batch : List ClientUpdate) (hne : batch ≠ [])
    (hok : ∀ u ∈ batch, updateSchemaOk u = true) :
    ∃ st' : AggregatorState,
      aggregate_updates now st batch = (st', .ok st'.global_model) ∧
      st'.global_model.anomaly_threshold =
        (batch.map updThreshold).sum / (batch.length : ℚ) ∧
      st'.global_model.spending_patterns.length = 10 ∧
      (∀ i, i < 10 → st'.global_model.spending_patterns.getD i 0 =
        (batch.map (fun u => (updSpendingRow u).getD i 0)).sum / (batch.length : ℚ)) ∧
      st'.global_model.category_weights.length = 5 ∧
      (∀ i, i < 5 → st'.global_model.category_weights.getD i 0 =
        (batch.map (fun u => (updCategoryRow u).getD i 0)).sum / (batch.length : ℚ)) ∧
      st'.global_model.temporal_factors.length = 7 ∧
      (∀ i, i < 7 → st'.global_model.temporal_factors.getD i 0 =
        (batch.map (fun u => (updTemporalRow u).getD i 0)).sum / (batch.length : ℚ)) := by
  have hw : batch.all (fun u => u.weights.isSome) = true := by
    rw [List.all_eq_true]
    intro u hu
    exact (updateSchemaOk_spec (hok u hu)).1
  rw [aggregate_uniform_eq now st batch 10 5 7 hne hw
    (fun u hu => (updateSchemaOk_spec (hok u hu)).2.1)
    (fun u hu => (updateSchemaOk_spec (hok u hu)).2.2.1)
    (fun u hu => (updateSchemaOk_spec (hok u hu)).2.2.2)]
  refine ⟨_, rfl, rfl, by simp, ?_, by simp, ?_, by simp, ?_⟩ <;>
    · intro i hi
      exact getD_range_map _ _ hi

/-- A schema-valid client update with `anomaly_threshold` 0.4. -/
def sampleUpdate04 : ClientUpdate :=
  ⟨some ⟨some (2/5), some (List.replicate 10 0), some (List.replicate 5 0),
    some (List.replicate 7 0)⟩⟩

/-- A schema-valid client update with `anomaly_threshold` 0.6. -/
def sampleUpdate06 : ClientUpdate :=
  ⟨some ⟨some (3/5), some (List.replicate 10 0), some (List.replicate 5 0),
    some (List.replicate 7 0)⟩⟩

/-- **C5 (witness).**  The spec's example: aggregating thresholds 0.4
and 0.6 succeeds and yields an aggregated `anomaly_threshold` of 0.5. -/
theorem aggregate_elementwise_mean_witness :
    ∃ st' : AggregatorState,
      aggregate_updates 0 sampleInitState [sampleUpdate04, sampleUpdate06] =
        (st', .ok st'.global_model) ∧
      st'.global_model.anomaly_threshold = 1/2 := by
  obtain ⟨st', heq, hthr, -⟩ :=
    aggregate_elementwise_mean 0 sampleInitState [sampleUpdate04, sampleUpdate06]
      (by decide) (by decide)
  refine ⟨st', heq, ?_⟩
  rw [hthr]
  simp [sampleUpdate04, sampleUpdate06, updThreshold, updWeights]
  norm_num

/-- `getD` on a replicated zero vector is zero at every index. -/
theorem getD_replicate_zero (n i : Nat) : (List.replicate n (0:ℚ)).getD i 0 = 0 := by
  induction n generalizing i with
  | zero => rfl
  | succ m ih =>
    cases i with
    | zero => rfl
    | succ j => simp only [List.replicate_succ, List.getD_cons_succ]; exact ih j

/-- **C10.**  An update whose `"weights"` dict omits all four fields
is not rejected: `aggregate_updates` succeeds and each missing field
contributes its `dict.get` default to the mean — `0.5` for the
threshold and an all-zero vector for each vector field — pulling the
aggregate toward those defaults. -/
theorem aggregate_missing_fields_use_defaults (now : Nat) (st : AggregatorState)
    (t : ℚ) (sp cw tf : List ℚ)
    (hsp : sp.length = 10) (hcw : cw.length = 5) (htf : tf.length = 7) :
    ∃ st' : AggregatorState,
      aggregate_updates now st
          [⟨some ⟨none, none, none, none⟩⟩, ⟨some ⟨some t, some sp, some cw, some tf⟩⟩] =
        (st', .ok st'.global_model) ∧
      st'.global_model.anomaly_threshold = (1/2 + t) / 2 ∧
      st'.global_model.spending_patterns.length = 10 ∧
      (∀ i, i < 10 → st'.global_model.spending_patterns.getD i 0 = (0 + sp.getD i 0) / 2) ∧
      (∀ i, i < 5 → st'.global_model.category_weights.getD i 0 = (0 + cw.getD i 0) / 2) ∧
      (∀ i, i < 7 → st'.global_model.temporal_factors.getD i 0 = (0 + tf.getD i 0) / 2) := by
  have h1 : ∀ u ∈ [(⟨some ⟨none, none, none, none⟩⟩ : ClientUpdate),
      ⟨some ⟨some t, some sp, some cw, some tf⟩⟩], (updSpendingRow u).length = 10 := by
    intro u hu
    rw [List.mem_cons, List.mem_singleton] at hu
    rcases hu with rfl | rfl
    · rfl
    · simp [updSpendingRow, updWeights, hsp]
  have h2 : ∀ u ∈ [(⟨some ⟨none, none, none, none⟩⟩ : ClientUpdate),
      ⟨some ⟨some t, some sp, some cw, some tf⟩⟩], (updCategoryRow u).length = 5 := by
    intro u hu
    rw [List.mem_cons, List.mem_singleton] at hu
    rcases hu with rfl | rfl
    · rfl
    · simp [updCategoryRow, updWeights, hcw]
  have h3 : ∀ u ∈ [(⟨some ⟨none, none, none, none⟩⟩ : ClientUpdate),
      ⟨some ⟨some t, some sp, some cw, some tf⟩⟩], (updTemporalRow u).length = 7 := by
    intro u hu
    rw [List.mem_cons, List.mem_singleton] at hu
    rcases hu with rfl | rfl
    · rfl
    · simp [updTemporalRow, updWeights, htf]
  rw [aggregate_uniform_eq now st _ 10 5 7 (by simp) (by rfl) h1 h2 h3]
  refine ⟨_, rfl, ?_, by simp, ?_, ?_, ?_⟩
  · simp [updThreshold, updWeights]
  all_goals
    intro i hi
    rw [getD_range_map _ _ hi]
    simp [updSpendingRow, updCategoryRow, updTemporalRow, updWeights]
    interval_cases i <;> simp

/-- **C10 (witness).**  Concrete instance: one empty-weights update
averaged with a full update of threshold 1. -/
theorem aggregate_missing_fields_use_defaults_witness :
    ∃ st' : AggregatorState,
      aggregate_updates 0 sampleInitState
          [⟨some ⟨none, none, none, none⟩⟩,
           ⟨some ⟨some 1, some (List.replicate 10 1), some (List.replicate 5 1),
             some (List.replicate 7 1)⟩⟩] =
        (st', .ok st'.global_model) ∧
      st'.global_model.anomaly_threshold = (1/2 + 1) / 2 ∧
      st'.global_model.spending_patterns.length = 10 ∧
      (∀ i, i < 10 → st'.global_model.spending_patterns.getD i 0 =
        (0 + (List.replicate 10 (1:ℚ)).getD i 0) / 2) ∧
      (∀ i, i < 5 → st'.global_model.category_weights.getD i 0 =
        (0 + (List.replicate 5 (1:ℚ)).getD i 0) / 2) ∧
      (∀ i, i < 7 → st'.global_model.temporal_factors.getD i 0 =
        (0 + (List.replicate 7 (1:ℚ)).getD i 0) / 2) :=
  aggregate_missing_fields_use_defaults 0 sampleInitState 1
    (List.replicate 10 1) (List.replicate 5 1) (List.replicate 7 1)
    (by simp) (by simp) (by simp)

/-- Exhaustive shape of a call to `aggregate_updates`: an error leaves
the state untouched; an empty batch returns the current model; a
successful non-empty round replaces the model wholesale and appends
exactly one history entry whose version minor counter is
`len(update_history) + 1`. -/
theorem aggregate_shape (now : Nat) (st : AggregatorState) (batch : List ClientUpdate) :
    (∃ e, aggregate_updates now st batch = (st, .error e)) ∨
    (batch = [] ∧ aggregate_updates now st batch = (st, .ok st.global_model)) ∨
    (batch ≠ [] ∧ ∃ m : GlobalModel,
      aggregate_updates now st batch =
        ({ global_model := m,
           update_history := st.update_history ++
             [{ timestamp := now, client_count := batch.length,
                version := (1, st.update_history.length + 1, 0) }] }, .ok m)) := by
  unfold aggregate_updates
  split
  · next hemp =>
    right; left
    exact ⟨by simpa [List.isEmpty_iff] using hemp, rfl⟩
  · next hemp =>
    have hne : batch ≠ [] := by simpa [List.isEmpty_iff] using hemp
    split
    · left; exact ⟨.invalidFormat, rfl⟩
    · dsimp only
      split
      · left; exact ⟨_, rfl⟩
      · split
        · left; exact ⟨_, rfl⟩
        · split
          · left; exact ⟨_, rfl⟩
          · right; right; exact ⟨hne, _, rfl⟩

/-- **C4 (amended).**  `aggregate_updates` performs no schema-length
validation: any failure leaves the aggregator state unchanged, but a
non-empty batch whose updates all carry a `"weights"` dict is accepted
whenever each field's vectors share one length per field across the
batch — whatever those lengths are.  A batch whose vectors are
uniformly mis-sized (e.g. all of length 9 instead of 10) is averaged
at that length and committed, not rejected. -/
theorem aggregate_no_length_validation (now : Nat) (st : AggregatorState)
    (batch : List ClientUpdate) :
    (∀ e, (aggregate_updates now st batch).2 = .error e →
      (aggregate_updates now st batch).1 = st) ∧
    (batch ≠ [] → (∀ u ∈ batch, u.weights.isSome = true) →
      ∀ L1 L2 L3 : Nat,
        (∀ u ∈ batch, (updSpendingRow u).length = L1) →
        (∀ u ∈ batch, (updCategoryRow u).length = L2) →
        (∀ u ∈ batch, (updTemporalRow u).length = L3) →
        ∃ st' m, aggregate_updates now st batch = (st', Except.ok m) ∧
          m.spending_patterns.length = L1 ∧ m.category_weights.length = L2 ∧
          m.temporal_factors.length = L3) := by
  constructor
  · intro e he
    rcases aggregate_shape now st batch with ⟨e', heq⟩ | ⟨_, heq⟩ | ⟨_, m, heq⟩
    · rw [heq]
    · rw [heq] at he; simp at he
    · rw [heq] at he; simp at he
  · intro hne hw L1 L2 L3 h1 h2 h3
    rw [aggregate_uniform_eq now st batch L1 L2 L3 hne (List.all_eq_true.mpr hw) h1 h2 h3]
    exact ⟨_, _, rfl, by simp, by simp, by simp⟩

/-- A client update whose `spending_patterns` has length 9 instead of
the schema's 10 (the other two vectors have schema lengths). -/
def sampleBadUpdate : ClientUpdate :=
  ⟨some ⟨some (1/2), some (List.replicate 9 0), some (List.replicate 5 0),
    some (List.replicate 7 0)⟩⟩

/-- **C4 (counterexample).**  A non-empty batch containing an update
whose `spending_patterns` has length 9 ≠ 10 is *not* rejected:
`aggregate_updates` succeeds and commits a global model whose
`spending_patterns` has length 9, contradicting the claim that such a
batch fails with `ValidationError` leaving the model unchanged. -/
theorem aggregate_wrong_length_not_rejected :
    ∃ st' : AggregatorState,
      aggregate_updates 0 sampleInitState [sampleBadUpdate] =
        (st', .ok st'.global_model) ∧
      st'.global_model.spending_patterns.length = 9 := by
  rw [aggregate_uniform_eq 0 sampleInitState [sampleBadUpdate] 9 5 7 (by simp) (by rfl)
    (by intro u hu; rw [List.mem_singleton] at hu; subst hu; rfl)
    (by intro u hu; rw [List.mem_singleton] at hu; subst hu; rfl)
    (by intro u hu; rw [List.mem_singleton] at hu; subst hu; rfl)]
  exact ⟨_, rfl, by simp⟩

/-- **C4 (witness).**  The amended theorem applied to the concrete
length-9 batch: accepted, and the committed vectors have lengths
9/5/7. -/
theorem aggregate_no_length_validation_witness :
    ∃ st' m, aggregate_updates 0 sampleInitState [sampleBadUpdate] = (st', Except.ok m) ∧
      m.spending_patterns.length = 9 ∧ m.category_weights.length = 5 ∧
      m.temporal_factors.length = 7 :=
  (aggregate_no_length_validation 0 sampleInitState [sampleBadUpdate]).2
    (by simp)
    (by intro u hu; rw [List.mem_singleton] at hu; subst hu; rfl)
    9 5 7
    (by intro u hu; rw [List.mem_singleton] at hu; subst hu; rfl)
    (by intro u hu; rw [List.mem_singleton] at hu; subst hu; rfl)
    (by intro u hu; rw [List.mem_singleton] at hu; subst hu; rfl)

/-- A sequence of `aggregate_updates` calls: each round is a
(timestamp, batch) pair; the run stops with `none` if any round
raises. -/
def runRounds (st : AggregatorState) :
    List (Nat × List ClientUpdate) → Option AggregatorState
  | [] => some st
  | (t, batch) :: rest =>
    match aggregate_updates t st batch with
    | (st', .ok _) => runRounds st' rest
    | (_, .error _) => none

/-- After a successful run of non-empty rounds, the history is the
input history extended by exactly one entry per round, recording that
round's timestamp, client count, and version `1.(len+j+1).0`. -/
theorem runRounds_history (rounds : List (Nat × List ClientUpdate)) :
    ∀ st stN : AggregatorState, (∀ r ∈ rounds, r.2 ≠ []) →
      runRounds st rounds = some stN →
      stN.update_history = st.update_history ++
        (List.range rounds.length).map (fun j =>
          { timestamp := (rounds.getD j (0, [])).1
            client_count := (rounds.getD j (0, [])).2.length
            version := (1, st.update_history.length + j + 1, 0) : HistoryEntry }) := by
  induction rounds with
  | nil =>
    intro st stN _ h
    simp only [runRounds, Option.some.injEq] at h
    subst h
    simp
  | cons r rest ih =>
    intro st stN hne hrun
    obtain ⟨t, batch⟩ := r
    rcases aggregate_shape t st batch with ⟨e, heq⟩ | ⟨hemp, heq⟩ | ⟨hbne, m, heq⟩
    · simp only [runRounds] at hrun
      rw [heq] at hrun
      simp at hrun
    · exact absurd hemp (hne (t, batch) (List.mem_cons_self _ _))
    · simp only [runRounds] at hrun
      rw [heq] at hrun
      have hrest := ih _ stN (fun r hr => hne r (List.mem_cons_of_mem _ hr)) hrun
      rw [hrest]
      simp only [List.length_cons, List.range_succ_eq_map, List.map_cons, List.map_map,
        List.getD_cons_zero, List.append_assoc, List.length_append, List.length_cons,
        List.singleton_append, List.cons.injEq]
      congr 1
      congr 1
      apply List.map_congr_left
      intro j hj
      simp only [Function.comp_apply, List.getD_cons_succ, List.length_nil,
        HistoryEntry.mk.injEq, Prod.mk.injEq]
      exact ⟨trivial, trivial, trivial, by omega, trivial⟩

/-- **C6.**  Starting from the initialized state, after `N` successful
aggregation rounds (each a call on a non-empty batch) the history has
exactly `N` entries; entry `j` records round `j`'s timestamp, its
client count, and the version `1.(j+1).0`; the version minor counter
is strictly increasing along the history, so versions are monotone and
never reused. -/
theorem history_versions_after_rounds (sp cw tf : List ℚ) (t0 : Nat)
    (rounds : List (Nat × List ClientUpdate)) (stN : AggregatorState)
    (hne : ∀ r ∈ rounds, r.2 ≠ [])
    (hrun : runRounds (FederatedAggregator.mkInit sp cw tf t0) rounds = some stN) :
    stN.update_history.length = rounds.length ∧
    (∀ j, j < rounds.length →
      stN.update_history.getD j ⟨0, 0, (0, 0, 0)⟩ =
        { timestamp := (rounds.getD j (0, [])).1
          client_count := (rounds.getD j (0, [])).2.length
          version := (1, j + 1, 0) }) ∧
    List.Pairwise (fun a b : HistoryEntry => a.version.2.1 < b.version.2.1)
      stN.update_history := by
  have h := runRounds_history rounds _ stN hne hrun
  simp only [FederatedAggregator.mkInit, List.nil_append, List.length_nil, Nat.zero_add] at h
  refine ⟨by rw [h]; simp, ?_, ?_⟩
  · intro j hj
    rw [h, getD_range_map _ _ hj]
  · rw [h]
    exact List.Pairwise.map _ (by intro a b hab; simpa using hab)
      (List.pairwise_lt_range _)

/-- **C6 (witness).**  A concrete two-round run from the initialized
state: the history has exactly 2 entries, entry `j` has version
`1.(j+1).0`, and the version minors are strictly increasing. -/
theorem history_versions_after_rounds_witness :
    ∃ stN : AggregatorState,
      runRounds sampleInitState [(0, [sampleUpdate04]), (1, [sampleUpdate04])] = some stN ∧
      stN.update_history.length = 2 ∧
      (∀ j, j < 2 →
        stN.update_history.getD j ⟨0, 0, (0, 0, 0)⟩ =
          { timestamp := ([((0:Nat), [sampleUpdate04]), (1, [sampleUpdate04])].getD j (0, [])).1
            client_count :=
              ([((0:Nat), [sampleUpdate04]), (1, [sampleUpdate04])].getD j (0, [])).2.length
            version := (1, j + 1, 0) }) ∧
      List.Pairwise (fun a b : HistoryEntry => a.version.2.1 < b.version.2.1)
        stN.update_history := by
  have hne : ∀ r ∈ [((0:Nat), [sampleUpdate04]), (1, [sampleUpdate04])],
      r.2 ≠ ([] : List ClientUpdate) := by
    intro r hr
    rw [List.mem_cons, List.mem_singleton] at hr
    rcases hr with rfl | rfl <;> simp
  have hrow1 : ∀ u ∈ [sampleUpdate04], (updSpendingRow u).length = 10 := by
    intro u hu; rw [List.mem_singleton] at hu; subst hu; rfl
  have hrow2 : ∀ u ∈ [sampleUpdate04], (updCategoryRow u).length = 5 := by
    intro u hu; rw [List.mem_singleton] at hu; subst hu; rfl
  have hrow3 : ∀ u ∈ [sampleUpdate04], (updTemporalRow u).length = 7 := by
    intro u hu; rw [List.mem_singleton] at hu; subst hu; rfl
  have step : ∀ (t : Nat) (st st' : AggregatorState) (m : GlobalModel)
      (rest : List (Nat × List ClientUpdate)),
      aggregate_updates t st [sampleUpdate04] = (st', .ok m) →
      runRounds st ((t, [sampleUpdate04]) :: rest) = runRounds st' rest := by
    intro t st st' m rest h
    simp only [runRounds, h]
  obtain ⟨st1, hagg1⟩ :
      ∃ st1, aggregate_updates 0 sampleInitState [sampleUpdate04] =
        (st1, .ok st1.global_model) := by
    rw [aggregate_uniform_eq 0 sampleInitState [sampleUpdate04] 10 5 7 (by simp) rfl
      hrow1 hrow2 hrow3]
    exact ⟨_, rfl⟩
  obtain ⟨st2, hagg2⟩ :
      ∃ st2, aggregate_updates 1 st1 [sampleUpdate04] = (st2, .ok st2.global_model) := by
    rw [aggregate_uniform_eq 1 st1 [sampleUpdate04] 10 5 7 (by simp) rfl
      hrow1 hrow2 hrow3]
    exact ⟨_, rfl⟩
  have hrun : runRounds sampleInitState [(0, [sampleUpdate04]), (1, [sampleUpdate04])] =
      some st2 := by
    rw [step 0 _ _ _ _ hagg1, step 1 _ _ _ _ hagg2]
    rfl
  obtain ⟨hlen, hj, hpw⟩ := history_versions_after_rounds (List.replicate 10 0)
    (List.replicate 5 0) (List.replicate 7 0) 0 _ st2 hne hrun
  exact ⟨st2, hrun, hlen, hj, hpw⟩

/-! ## Local trainer (`trainer.py`)

`train_locally` works on Python floats.  Values are exact rationals
except where IEEE semantics matter: numpy float division by a zero
divisor raises no error but yields `nan` (0/0) or `±inf` (x/0, x≠0);
the `FVal` type makes that explicit for the z-score normalisation in
`spending_patterns`.  `np.std` is the real square root of the
population variance, which is in general irrational; `train_locally`
therefore receives `std_amount` as an explicit argument, and every
theorem below pins it down by `0 ≤ std` and
`std * std = listVariance (dailyAmounts entries)`. -/

/-- A ledger entry as consumed by `LocalTrainer.train_locally`:
`amount` (`none` = NULL), `type` (category string, `none` = NULL) and
`date` (date string, `none` = NULL). -/
structure LedgerEntry where
  amount : Option ℚ
  type : Option String
  date : Option String
deriving Repr, DecidableEq

/-- A numpy float value: a finite rational, or the non-finite values
division by zero produces. -/
inductive FVal
  | real (q : ℚ)
  | nan
  | inf
  | neginf
deriving Repr, DecidableEq

/-- numpy float division: divisor zero yields `nan` or `±inf` (with a
RuntimeWarning) instead of raising. -/
def npDiv (a b : ℚ) : FVal :=
  if b = 0 then (if a = 0 then .nan else if 0 < a then .inf else .neginf)
  else .real (a / b)

/-- The `self.weights` dict of a `LocalTrainer` (the four numeric
fields; `version`/`trained_at` metadata is not modelled). -/
structure TrainerWeights where
  anomaly_threshold : ℚ
  spending_patterns : List FVal
  category_weights : List ℚ
  temporal_factors : List ℚ
deriving Repr, DecidableEq

/-- Python truthiness of `entry.amount` (`if entry.amount:`): `None`
and `0` are falsy. -/
def amountTruthy (e : LedgerEntry) : Bool :=
  match e.amount with
  | none => false
  | some q => q != 0

/-- `entries[-100:] if len(entries) > 100 else entries`. -/
def recentEntries (entries : List LedgerEntry) : List LedgerEntry :=
  if entries.length > 100 then entries.drop (entries.length - 100) else entries

/-- The `daily_amounts` list: absolute values of the truthy amounts of
the window, in order. -/
def dailyAmounts (entries : List LedgerEntry) : List ℚ :=
  ((recentEntries entries).filter amountTruthy).map (fun e => |e.amount.getD 0|)

/-- `np.mean` over a list (as an exact rational). -/
def listMean (xs : List ℚ) : ℚ := xs.sum / xs.length

/-- Population variance (`np.std` squared) over a list. -/
def listVariance (xs : List ℚ) : ℚ :=
  (xs.map (fun x => (x - listMean xs) ^ 2)).sum / xs.length

/-- Gregorian leap year. -/
def isLeapYear (y : Nat) : Bool :=
  y % 4 == 0 && (y % 100 != 0 || y % 400 == 0)

/-- Days in a month (Gregorian). -/
def daysInMonth (y m : Nat) : Nat :=
  if m = 2 then (if isLeapYear y then 29 else 28)
  else if m = 4 ∨ m = 6 ∨ m = 9 ∨ m = 11 then 30 else 31

/-- `datetime.weekday()` (Monday = 0 … Sunday = 6) of a proleptic
Gregorian date with `y ≥ 1`, via a day-number formula calibrated so
that 1970-01-01 is Thursday (= 3). -/
def pyWeekday (y m d : Nat) : Fin 7 :=
  let yy := if m ≤ 2 then y - 1 else y
  let mm := if m ≤ 2 then m + 12 else m
  ⟨(365 * yy + yy / 4 - yy / 100 + yy / 400 + (153 * (mm + 1)) / 5 + d + 5) % 7,
    Nat.mod_lt _ (by omega)⟩

/-- Split a character list on `'-'` (the separators of the
`%Y-%m-%d` format). -/
def splitOnDash : List Char → List (List Char)
  | [] => [[]]
  | c :: rest =>
    let r := splitOnDash rest
    if c = '-' then [] :: r
    else (c :: r.headD []) :: r.tail

/-- A non-empty all-digit character group as a number. -/
def digitsToNat? (cs : List Char) : Option Nat :=
  if cs ≠ [] ∧ cs.all (fun c => c.isDigit) then
    some (cs.foldl (fun n c => 10 * n + (c.toNat - 48)) 0)
  else none

/-- `datetime.strptime(s, "%Y-%m-%d")`: three dash-separated decimal
fields (year up to 4 digits, month/day up to 2), validated as a real
calendar date with year ≥ 1; returns the (y, m, d) triple or fails. -/
def parseYMD (s : String) : Option (Nat × Nat × Nat) :=
  match splitOnDash s.data with
  | [ys, ms, ds] =>
    match digitsToNat? ys, digitsToNat? ms, digitsToNat? ds with
    | some y, some m, some d =>
      if ys.length ≤ 4 && ms.length ≤ 2 && ds.length ≤ 2 && 1 ≤ y &&
          1 ≤ m && m ≤ 12 && 1 ≤ d && d ≤ daysInMonth y m then
        some (y, m, d)
      else none
    | _, _, _ => none
  | _ => none

/-- The weekday of an entry's date, or `none` when
`datetime.strptime(entry.date, "%Y-%m-%d")` raises (NULL date or
unparseable string) — the bare `except: continue` skips the record. -/
def entryWeekday (e : LedgerEntry) : Option (Fin 7) :=
  match e.date with
  | none => none
  | some s => (parseYMD s).map (fun t => pyWeekday t.1 t.2.1 t.2.2)

/-- The `day_patterns` array after the loop: for each weekday the
number of window records whose date parses to that weekday. -/
def dayPatterns (l : List LedgerEntry) : List Nat :=
  (List.range 7).map (fun k => ((l.filterMap entryWeekday).filter (fun w => w.val == k)).length)

/-- `LocalTrainer.train_locally`.  Pure version: `w` is the incoming
`self.weights`, the result is the outgoing `self.weights` (also the
return value).  `std_amount` is `np.std(daily_amounts)` passed
explicitly (see the section comment). -/
def train_locally (std_amount : ℚ) (w : TrainerWeights)
    (entries : List LedgerEntry) : TrainerWeights :=
  if entries.isEmpty then w
  else
    let recent_entries := recentEntries entries
    let daily_amounts := dailyAmounts entries
    let w1 :=
      if daily_amounts.isEmpty then w
      else
        let mean_amount := listMean daily_amounts
        let thr := min (8/10) (max (2/10) (mean_amount / (mean_amount + std_amount)))
        let w1a := { w with anomaly_threshold := thr }
        let normalized_amounts := (daily_amounts.drop (daily_amounts.length - 10)).map
          (fun x => npDiv (x - mean_amount) std_amount)
        if daily_amounts.length ≥ 10 then
          { w1a with spending_patterns := normalized_amounts }
        else w1a
    let total_entries := recent_entries.length
    let category_weights := ["sale", "purchase", "expense", "receipt"].map (fun c =>
      ((recent_entries.filter (fun e => e.type = some c)).length : ℚ) / (total_entries : ℚ))
    let w2 :=
      if total_entries > 0 then { w1 with category_weights := category_weights }
      else w1
    let day_patterns := dayPatterns recent_entries
    let normalized_days := day_patterns.map (fun d : ℕ => (d : ℚ) / (day_patterns.sum : ℚ))
    if day_patterns.sum > 0 then { w2 with temporal_factors := normalized_days }
    else w2

/-- A zero sum of squared deviations forces every element to equal the
center. -/
theorem eq_of_sum_sq_eq_zero {c : ℚ} : ∀ {xs : List ℚ},
    (xs.map (fun x => (x - c) ^ 2)).sum = 0 → ∀ x ∈ xs, x = c := by
  intro xs
  induction xs with
  | nil => intro _ x hx; simp at hx
  | cons a l ih =>
    intro h x hx
    rw [List.map_cons, List.sum_cons] at h
    have h1 : 0 ≤ (a - c) ^ 2 := sq_nonneg _
    have h2 : 0 ≤ (l.map (fun x => (x - c) ^ 2)).sum := by
      apply List.sum_nonneg
      intro y hy
      rw [List.mem_map] at hy
      obtain ⟨z, -, rfl⟩ := hy
      exact sq_nonneg _
    rw [List.mem_cons] at hx
    rcases hx with rfl | hx
    · have ha : (x - c) ^ 2 = 0 := by linarith
      have := sq_eq_zero_iff.mp ha
      linarith
    · exact ih (by linarith) x hx

/-- Zero variance of a non-empty list forces every element to equal
the mean. -/
theorem all_eq_mean_of_variance_zero {xs : List ℚ} (hne : xs ≠ [])
    (hvar : listVariance xs = 0) : ∀ x ∈ xs, x = listMean xs := by
  have hlen : ((xs.length : ℚ)) ≠ 0 := by
    have : xs.length ≠ 0 := by
      intro h
      exact hne (List.length_eq_zero.mp h)
    exact_mod_cast this
  unfold listVariance at hvar
  rcases div_eq_zero_iff.mp hvar with h | h
  · exact eq_of_sum_sq_eq_zero h
  · exact absurd h hlen

/-- **C7.**  When at least 10 amount samples exist and their standard
deviation is zero, `train_locally` does *not* define the normalized
`spending_patterns` as zero: the z-score division executes with a zero
divisor and every entry of the committed vector is the float `nan`,
contradicting the claim that the division never runs with a zero
divisor. -/
theorem trainer_zero_std_gives_nan (std : ℚ) (w : TrainerWeights)
    (entries : List LedgerEntry)
    (hne : entries.isEmpty = false)
    (h10 : 10 ≤ (dailyAmounts entries).length)
    (hstd : 0 ≤ std) (hsq : std * std = listVariance (dailyAmounts entries))
    (hvar : listVariance (dailyAmounts entries) = 0) :
    (train_locally std w entries).spending_patterns = List.replicate 10 FVal.nan := by
  have hstd0 : std = 0 := mul_self_eq_zero.mp (hsq.trans hvar)
  subst hstd0
  have hdne : dailyAmounts entries ≠ [] := by
    intro h
    rw [h] at h10
    simp at h10
  have hall : ∀ x ∈ dailyAmounts entries, x = listMean (dailyAmounts entries) :=
    all_eq_mean_of_variance_zero hdne hvar
  have hdemp : (dailyAmounts entries).isEmpty = false := by
    cases h : dailyAmounts entries with
    | nil => exact absurd h hdne
    | cons a l => rfl
  have hnorm : ((dailyAmounts entries).drop ((dailyAmounts entries).length - 10)).map
      (fun x => npDiv (x - listMean (dailyAmounts entries)) 0) =
      List.replicate 10 FVal.nan := by
    rw [List.eq_replicate_iff]
    constructor
    · rw [List.length_map, List.length_drop]
      omega
    · intro b hb
      rw [List.mem_map] at hb
      obtain ⟨x, hx, rfl⟩ := hb
      rw [hall x (List.mem_of_mem_drop hx)]
      simp [npDiv]
  unfold train_locally
  rw [hne]
  simp only [Bool.false_eq_true, if_false]
  rw [hdemp]
  simp only [Bool.false_eq_true, if_false, if_pos h10]
  rw [hnorm]
  split
  · split <;> rfl
  · split <;> rfl

/-- Ten identical nonzero amounts: the window on which the z-score
normalisation divides by a zero standard deviation. -/
def sampleConstEntries : List LedgerEntry :=
  List.replicate 10 ⟨some 5, none, none⟩

/-- **C7 (witness).**  On ten records of amount 5 the standard
deviation is 0 and the committed `spending_patterns` is ten `nan`s. -/
theorem trainer_zero_std_gives_nan_witness :
    sampleConstEntries.isEmpty = false ∧
    10 ≤ (dailyAmounts sampleConstEntries).length ∧
    (0:ℚ) ≤ 0 ∧ (0:ℚ) * 0 = listVariance (dailyAmounts sampleConstEntries) ∧
    listVariance (dailyAmounts sampleConstEntries) = 0 ∧
    (train_locally 0 ⟨1/2, [], [], []⟩ sampleConstEntries).spending_patterns =
      List.replicate 10 FVal.nan := by
  have hda : dailyAmounts sampleConstEntries = List.replicate 10 5 := by
    decide
  have hvar : listVariance (dailyAmounts sampleConstEntries) = 0 := by
    rw [hda]
    unfold listVariance listMean
    rw [List.sum_replicate, List.length_replicate, List.map_replicate, List.sum_replicate]
    norm_num [nsmul_eq_mul]
  refine ⟨by decide, by rw [hda]; decide, by norm_num, by rw [hvar]; norm_num, hvar, ?_⟩
  exact trainer_zero_std_gives_nan 0 ⟨1/2, [], [], []⟩ sampleConstEntries
    (by decide) (by rw [hda]; decide) (by norm_num) (by rw [hvar]; norm_num) hvar

/-- Threshold committed by `train_locally` when the window has at
least one truthy amount. -/
theorem train_locally_threshold_pos (std : ℚ) (w : TrainerWeights)
    (entries : List LedgerEntry) (hne : entries.isEmpty = false)
    (hd : (dailyAmounts entries).isEmpty = false) :
    (train_locally std w entries).anomaly_threshold =
      min (8/10) (max (2/10)
        (listMean (dailyAmounts entries) / (listMean (dailyAmounts entries) + std))) := by
  unfold train_locally
  rw [hne]
  simp only [Bool.false_eq_true, if_false]
  rw [hd]
  simp only [Bool.false_eq_true, if_false]
  split <;> split <;> split <;> rfl

/-- `train_locally` leaves the threshold alone when the window has no
truthy amount. -/
theorem train_locally_threshold_empty (std : ℚ) (w : TrainerWeights)
    (entries : List LedgerEntry) (hne : entries.isEmpty = false)
    (hd : (dailyAmounts entries).isEmpty = true) :
    (train_locally std w entries).anomaly_threshold = w.anomaly_threshold := by
  unfold train_locally
  rw [hne]
  simp only [Bool.false_eq_true, if_false]
  rw [hd]
  simp only [if_true]
  split <;> split <;> rfl

/-- **C8 (amended).**  On a non-empty record list `train_locally`
considers only the most recent 100 records, but the amount statistics
exclude records whose amount is zero or missing (Python truthiness of
`entry.amount`): when at least one nonzero amount exists in the window
the threshold is `clamp(mean/(mean+std), 0.2, 0.8)` of the absolute
*nonzero* amounts, and when none exists the threshold is left at its
previous value. -/
theorem trainer_threshold_clamped_formula (std : ℚ) (w : TrainerWeights)
    (entries : List LedgerEntry) (hne : entries.isEmpty = false)
    (_hstd : 0 ≤ std) (_hsq : std * std = listVariance (dailyAmounts entries)) :
    ((dailyAmounts entries).isEmpty = false →
      (train_locally std w entries).anomaly_threshold =
        min (8/10) (max (2/10) (listMean (dailyAmounts entries) /
          (listMean (dailyAmounts entries) + std)))) ∧
    ((dailyAmounts entries).isEmpty = true →
      (train_locally std w entries).anomaly_threshold = w.anomaly_threshold) :=
  ⟨fun hd => train_locally_threshold_pos std w entries hne hd,
   fun hd => train_locally_threshold_empty std w entries hne hd⟩

/-- Refinement-side definition following the claim's words: the
absolute amounts of *all* records of the window (no truthiness
filter), to compare with the code's `dailyAmounts`. -/
def specWindowAmounts (entries : List LedgerEntry) : List ℚ :=
  (recentEntries entries).map (fun e => |e.amount.getD 0|)

/-- A window holding a zero amount and a 10 amount. -/
def sampleZeroTen : List LedgerEntry :=
  [⟨some 0, none, none⟩, ⟨some 10, none, none⟩]

/-- **C8 (counterexample).**  On the window `[0, 10]` the claim's
formula over all absolute amounts (mean 5, std 5) gives threshold 0.5,
but the code drops the zero amount (mean 10, std 0) and commits 0.8. -/
theorem trainer_threshold_skips_zero_amounts :
    ((0:ℚ) ≤ 0 ∧ (0:ℚ) * 0 = listVariance (dailyAmounts sampleZeroTen)) ∧
    ((0:ℚ) ≤ 5 ∧ (5:ℚ) * 5 = listVariance (specWindowAmounts sampleZeroTen)) ∧
    (train_locally 0 ⟨1/2, [], [], []⟩ sampleZeroTen).anomaly_threshold = 8/10 ∧
    min (8/10) (max (2/10) (listMean (specWindowAmounts sampleZeroTen) /
      (listMean (specWindowAmounts sampleZeroTen) + 5))) = 1/2 ∧
    ((8:ℚ)/10) ≠ 1/2 := by
  have hda : dailyAmounts sampleZeroTen = [10] := by decide
  have hsw : specWindowAmounts sampleZeroTen = [0, 10] := by decide
  have hmean : listMean (dailyAmounts sampleZeroTen) = 10 := by
    rw [hda]; unfold listMean; norm_num
  have hsmean : listMean (specWindowAmounts sampleZeroTen) = 5 := by
    rw [hsw]; unfold listMean; norm_num
  refine ⟨⟨le_refl 0, ?_⟩, ⟨by norm_num, ?_⟩, ?_, ?_, by norm_num⟩
  · rw [hda]; unfold listVariance listMean; norm_num
  · rw [hsw]; unfold listVariance listMean; norm_num
  · rw [train_locally_threshold_pos 0 ⟨1/2, [], [], []⟩ sampleZeroTen (by decide)
      (by rw [hda]; rfl), hmean]
    rw [show (10:ℚ) / (10 + 0) = 1 by norm_num]
    rw [max_eq_right (by norm_num), min_eq_left (by norm_num)]
  · rw [hsmean]
    rw [show (5:ℚ) / (5 + 5) = 1/2 by norm_num]
    rw [max_eq_right (by norm_num), min_eq_right (by norm_num)]

/-- Two records of amount 3: nonzero amounts, zero deviation. -/
def sampleThrees : List LedgerEntry :=
  [⟨some 3, none, none⟩, ⟨some 3, none, none⟩]

/-- **C8 (witness).**  The amended threshold formula instantiated on a
concrete window of two amount-3 records with std 0. -/
theorem trainer_threshold_clamped_formula_witness :
    sampleThrees.isEmpty = false ∧ (0:ℚ) ≤ 0 ∧
    ((0:ℚ) * 0 = listVariance (dailyAmounts sampleThrees)) ∧
    (((dailyAmounts sampleThrees).isEmpty = false →
      (train_locally 0 ⟨1/2, [], [], []⟩ sampleThrees).anomaly_threshold =
        min (8/10) (max (2/10) (listMean (dailyAmounts sampleThrees) /
          (listMean (dailyAmounts sampleThrees) + 0)))) ∧
    ((dailyAmounts sampleThrees).isEmpty = true →
      (train_locally 0 ⟨1/2, [], [], []⟩ sampleThrees).anomaly_threshold = 1/2)) := by
  have hda : dailyAmounts sampleThrees = [3, 3] := by decide
  have hvar : listVariance (dailyAmounts sampleThrees) = 0 := by
    rw [hda]; unfold listVariance listMean; norm_num
  exact ⟨rfl, le_refl 0, by rw [hvar]; norm_num,
    trainer_threshold_clamped_formula 0 ⟨1/2, [], [], []⟩ sampleThrees rfl (le_refl 0)
      (by rw [hvar]; norm_num)⟩

/-- Counting the elements of a `Fin 7` list by value over `range 7`
recovers the list's length. -/
theorem weekcount_sum (ws : List (Fin 7)) :
    ((List.range 7).map (fun k => (ws.filter (fun w => w.val == k)).length)).sum
      = ws.length := by
  induction ws with
  | nil => simp
  | cons w t ih =>
    have hsplit : ∀ k : Nat, ((w :: t).filter (fun x => x.val == k)).length =
        (if w.val = k then 1 else 0) + (t.filter (fun x => x.val == k)).length := by
      intro k
      rw [List.filter_cons]
      by_cases h : w.val = k
      · simp [h]
        omega
      · simp [h]
    simp only [hsplit]
    rw [List.sum_map_add]
    have hone : ((List.range 7).map (fun k => if w.val = k then 1 else 0)).sum = 1 := by
      fin_cases w <;> decide
    rw [hone, ih, List.length_cons]
    omega

/-- The `day_patterns` counters sum to the number of window records
with a parseable date. -/
theorem dayPatterns_sum (l : List LedgerEntry) :
    (dayPatterns l).sum = (l.filterMap entryWeekday).length :=
  weekcount_sum (l.filterMap entryWeekday)

/-- Dividing each element by a constant divides the sum. -/
theorem sum_map_div_natCast (l : List Nat) (c : ℚ) :
    (l.map (fun d : ℕ => (d : ℚ) / c)).sum = ((l.sum : ℚ)) / c := by
  induction l with
  | nil => simp
  | cons a t ih =>
    rw [List.map_cons, List.sum_cons, ih, List.sum_cons, Nat.cast_add, add_div]

/-- The committed `temporal_factors` when some window record has a
parseable date. -/
theorem train_locally_temporal_pos (std : ℚ) (w : TrainerWeights)
    (entries : List LedgerEntry) (hne : entries.isEmpty = false)
    (hp : 0 < (dayPatterns (recentEntries entries)).sum) :
    (train_locally std w entries).temporal_factors =
      (dayPatterns (recentEntries entries)).map
        (fun d : ℕ => (d : ℚ) / ((dayPatterns (recentEntries entries)).sum : ℚ)) := by
  unfold train_locally
  rw [hne]
  simp only [Bool.false_eq_true, if_false]
  rw [if_pos hp]

/-- `temporal_factors` is untouched when no window record has a
parseable date. -/
theorem train_locally_temporal_zero (std : ℚ) (w : TrainerWeights)
    (entries : List LedgerEntry) (hne : entries.isEmpty = false)
    (hp : (dayPatterns (recentEntries entries)).sum = 0) :
    (train_locally std w entries).temporal_factors = w.temporal_factors := by
  unfold train_locally
  rw [hne]
  simp only [Bool.false_eq_true, if_false]
  rw [if_neg (by omega)]
  split <;> split <;> (try split) <;> rfl

/-- **C9.**  `temporal_factors` is the relative weekday frequency of
the window records whose dates parse (unparseable dates are skipped,
not errors): the weekday counters total exactly the parseable records;
when at least one window record parses, the committed 7-vector is
`count/total` per weekday and sums to 1; when none parses, the vector
keeps its previous value. -/
theorem trainer_temporal_factors (std : ℚ) (w : TrainerWeights)
    (entries : List LedgerEntry) (hne : entries.isEmpty = false) :
    (dayPatterns (recentEntries entries)).sum =
      ((recentEntries entries).filterMap entryWeekday).length ∧
    (((recentEntries entries).filterMap entryWeekday).length > 0 →
      (train_locally std w entries).temporal_factors =
        (dayPatterns (recentEntries entries)).map
          (fun d : ℕ => (d : ℚ) / ((dayPatterns (recentEntries entries)).sum : ℚ)) ∧
      (train_locally std w entries).temporal_factors.sum = 1) ∧
    (((recentEntries entries).filterMap entryWeekday).length = 0 →
      (train_locally std w entries).temporal_factors = w.temporal_factors) := by
  have hds := dayPatterns_sum (recentEntries entries)
  refine ⟨hds, ?_, ?_⟩
  · intro hlen
    have hp : 0 < (dayPatterns (recentEntries entries)).sum := by
      rw [hds]; exact hlen
    have ht := train_locally_temporal_pos std w entries hne hp
    refine ⟨ht, ?_⟩
    rw [ht, sum_map_div_natCast]
    exact div_self (by exact_mod_cast hp.ne')
  · intro hlen
    exact train_locally_temporal_zero std w entries hne (by rw [hds]; exact hlen)

/-- One record with the parseable date 2024-01-01. -/
def sampleDated : List LedgerEntry :=
  [⟨some 1, none, some "2024-01-01"⟩]

/-- **C9 (witness).**  The temporal-factors theorem instantiated on a
window with one parseable date (so the positive branch is live). -/
theorem trainer_temporal_factors_witness :
    sampleDated.isEmpty = false ∧
    ((recentEntries sampleDated).filterMap entryWeekday).length = 1 ∧
    ((dayPatterns (recentEntries sampleDated)).sum =
      ((recentEntries sampleDated).filterMap entryWeekday).length ∧
    (((recentEntries sampleDated).filterMap entryWeekday).length > 0 →
      (train_locally 0 ⟨1/2, [], [], []⟩ sampleDated).temporal_factors =
        (dayPatterns (recentEntries sampleDated)).map
          (fun d : ℕ => (d : ℚ) / ((dayPatterns (recentEntries sampleDated)).sum : ℚ)) ∧
      (train_locally 0 ⟨1/2, [], [], []⟩ sampleDated).temporal_factors.sum = 1) ∧
    (((recentEntries sampleDated).filterMap entryWeekday).length = 0 →
      (train_locally 0 ⟨1/2, [], [], []⟩ sampleDated).temporal_factors = [])) :=
  ⟨rfl, by decide, trainer_temporal_factors 0 ⟨1/2, [], [], []⟩ sampleDated rfl⟩

/-! ## Secure sync (`secure_sync.py`)

Bytes are modelled as `List Nat` with every element `< 256`.
`base64.b64encode`/`b64decode` and `bytes.fromhex` are modelled on the
standard RFC 4648 alphabet (the model decoder is strict: it accepts
exactly the well-formed strings the encoder produces plus any properly
padded alphabet string, while Python's lenient decoder additionally
discards non-alphabet characters — no claim below depends on that
leniency). -/

/-- Value of a base64 alphabet character. -/
def b64Val (c : Char) : Option Nat :=
  if 'A' ≤ c ∧ c ≤ 'Z' then some (c.toNat - 65)
  else if 'a' ≤ c ∧ c ≤ 'z' then some (c.toNat - 97 + 26)
  else if '0' ≤ c ∧ c ≤ '9' then some (c.toNat - 48 + 52)
  else if c = '+' then some 62
  else if c = '/' then some 63
  else none

/-- The base64 alphabet character of a 6-bit value. -/
def b64Char (n : Nat) : Char :=
  if n < 26 then Char.ofNat (65 + n)
  else if n < 52 then Char.ofNat (97 + (n - 26))
  else if n < 62 then Char.ofNat (48 + (n - 52))
  else if n = 62 then '+'
  else '/'

/-- `base64.b64encode` over byte lists (3-byte groups to 4 characters,
`=`-padded). -/
def b64EncodeBytes : List Nat → List Char
  | [] => []
  | [b0] => [b64Char (b0 / 4), b64Char ((b0 % 4) * 16), '=', '=']
  | [b0, b1] => [b64Char (b0 / 4), b64Char ((b0 % 4) * 16 + b1 / 16),
      b64Char ((b1 % 16) * 4), '=']
  | b0 :: b1 :: b2 :: rest =>
    b64Char (b0 / 4) :: b64Char ((b0 % 4) * 16 + b1 / 16) ::
      b64Char ((b1 % 16) * 4 + b2 / 64) :: b64Char (b2 % 64) :: b64EncodeBytes rest

/-- `base64.b64decode` over character lists (4-character groups,
`=`-padding only at the end). -/
def b64DecodeBytes : List Char → Option (List Nat)
  | [] => some []
  | c0 :: c1 :: c2 :: c3 :: rest =>
    match b64Val c0, b64Val c1 with
    | some v0, some v1 =>
      if c2 = '=' ∧ c3 = '=' ∧ rest = [] then
        some [v0 * 4 + v1 / 16]
      else if c3 = '=' ∧ rest = [] then
        match b64Val c2 with
        | some v2 => some [v0 * 4 + v1 / 16, (v1 % 16) * 16 + v2 / 4]
        | none => none
      else
        match b64Val c2, b64Val c3 with
        | some v2, some v3 =>
          match b64DecodeBytes rest with
          | some bs =>
            some ((v0 * 4 + v1 / 16) :: ((v1 % 16) * 16 + v2 / 4) :: ((v2 % 4) * 64 + v3) :: bs)
          | none => none
        | _, _ => none
    | _, _ => none
  | _ => none

/-- Value of a hexadecimal digit. -/
def hexVal (c : Char) : Option Nat :=
  if '0' ≤ c ∧ c ≤ '9' then some (c.toNat - 48)
  else if 'a' ≤ c ∧ c ≤ 'f' then some (c.toNat - 87)
  else if 'A' ≤ c ∧ c ≤ 'F' then some (c.toNat - 55)
  else none

/-- `bytes.fromhex` over character lists (an even number of hex
digits). -/
def hexDecode : List Char → Option (List Nat)
  | [] => some []
  | c0 :: c1 :: rest =>
    match hexVal c0, hexVal c1, hexDecode rest with
    | some h, some l, some bs => some ((h * 16 + l) :: bs)
    | _, _, _ => none
  | _ => none

/-- Python truthiness of an optional string (`None` and `""` are
falsy). -/
def strTruthy : Option String → Bool
  | none => false
  | some s => s ≠ ""

/-- The environment variables `SecureSync.__init__` reads (`none` =
unset). -/
structure Env where
  FEDERATED_MASTER_SECRET : Option String
  FEDERATED_AES_KEY : Option String
  FEDERATED_SALT : Option String

/-- The distinct `ValueError`s `SecureSync.__init__` can raise. -/
inductive InitError
  | missingMasterKey
  | invalidAesKey
  | missingSalt
  | invalidSalt
deriving Repr, DecidableEq

/-- Models the external `cryptography` library's PBKDF2-HMAC-SHA256
derivation (100000 iterations, 32-byte output).  The key-derivation
internals are third-party library code, not part of this repository;
the claims settled here depend only on this being some deterministic
function of (password, salt) that produces 32 bytes, which this model
is. -/
def pbkdf2Sha256 (password salt : List Nat) : List Nat :=
  (List.range 32).map (fun i =>
    ((password.foldl (fun a b => (a * 31 + b) % 256) (i + salt.length)) +
     (salt.foldl (fun a b => (a * 37 + b) % 256) i)) % 256)

/-- `SecureSync.__init__`: resolves the AES key or raises.  Mirrors
the source order exactly: the master key (argument, else
`FEDERATED_MASTER_SECRET`) is demanded *first*; only then is
`FEDERATED_AES_KEY` considered (used verbatim when it decodes to
exactly 32 bytes, with no fallback on error), and otherwise a
≥16-byte hex `FEDERATED_SALT` is required for PBKDF2 derivation. -/
def secureSyncInit (env : Env) (master_key_arg : Option String) :
    Except InitError (List Nat) :=
  let master_key : Option String :=
    if strTruthy master_key_arg then master_key_arg else env.FEDERATED_MASTER_SECRET
  if ¬ strTruthy master_key then .error .missingMasterKey
  else if strTruthy env.FEDERATED_AES_KEY then
    match b64DecodeBytes ((env.FEDERATED_AES_KEY.getD "").data) with
    | some key => if key.length = 32 then .ok key else .error .invalidAesKey
    | none => .error .invalidAesKey
  else
    match env.FEDERATED_SALT with
    | none => .error .missingSalt
    | some salt_hex =>
      if salt_hex = "" then .error .missingSalt
      else
        match hexDecode salt_hex.data with
        | none => .error .invalidSalt
        | some salt =>
          if salt.length < 16 then .error .invalidSalt
          else .ok (pbkdf2Sha256 ((master_key.getD "").data.map Char.toNat) salt)

/-- A valid base64 encoding of a 32-byte key (32 zero bytes). -/
def sampleAesKeyB64 : String := "AAAAAAAAAAAAAAAAAAAAAAAAAAAAAAAAAAAAAAAAAAA="

/-- **C3 (counterexample).**  With a valid pre-derived 32-byte
`FEDERATED_AES_KEY` but no master secret configured, construction does
*not* succeed with that key: it fails with the missing-master-key
`ValueError`, because the constructor demands a master secret before
it ever looks at the direct key. -/
theorem secure_sync_direct_key_without_master_secret_fails :
    b64DecodeBytes sampleAesKeyB64.data = some (List.replicate 32 0) ∧
    (List.replicate 32 (0:Nat)).length = 32 ∧
    secureSyncInit ⟨none, some sampleAesKeyB64, none⟩ none =
      .error .missingMasterKey := by
  refine ⟨by decide, by decide, ?_⟩
  rfl

/-- **C3 (amended).**  Construction first requires a master secret
(constructor argument or `FEDERATED_MASTER_SECRET`): without one it
always fails with the missing-master-key error, even when a valid
direct key is supplied.  Given a master secret, a direct key that
decodes to exactly 32 bytes is used verbatim — even with no salt
configured; and every successful construction is of one of exactly two
shapes: the verbatim 32-byte direct key, or (no direct key) PBKDF2
derivation from the master secret and a non-empty, valid-hex,
≥16-byte salt. -/
theorem secure_sync_init_spec (env : Env) (mk_arg : Option String) :
    ((strTruthy mk_arg = false ∧ strTruthy env.FEDERATED_MASTER_SECRET = false) →
      secureSyncInit env mk_arg = .error .missingMasterKey) ∧
    (∀ key : List Nat,
      (strTruthy mk_arg = true ∨ strTruthy env.FEDERATED_MASTER_SECRET = true) →
      strTruthy env.FEDERATED_AES_KEY = true →
      b64DecodeBytes ((env.FEDERATED_AES_KEY.getD "").data) = some key →
      key.length = 32 →
      secureSyncInit env mk_arg = .ok key) ∧
    (∀ key : List Nat, secureSyncInit env mk_arg = .ok key →
      (strTruthy mk_arg = true ∨ strTruthy env.FEDERATED_MASTER_SECRET = true) ∧
      ((strTruthy env.FEDERATED_AES_KEY = true ∧
          b64DecodeBytes ((env.FEDERATED_AES_KEY.getD "").data) = some key ∧
          key.length = 32) ∨
        (strTruthy env.FEDERATED_AES_KEY = false ∧
          ∃ salt_hex salt, env.FEDERATED_SALT = some salt_hex ∧ salt_hex ≠ "" ∧
            hexDecode salt_hex.data = some salt ∧ 16 ≤ salt.length ∧
            key = pbkdf2Sha256
              (((if strTruthy mk_arg then mk_arg
                 else env.FEDERATED_MASTER_SECRET).getD "").data.map Char.toNat)
              salt))) := by
  refine ⟨?_, ?_, ?_⟩
  · rintro ⟨h1, h2⟩
    simp only [secureSyncInit, h1, Bool.false_eq_true, if_false, h2, not_false_eq_true,
      if_true]
  · intro key hmk haes hdec hlen
    have hm : strTruthy (if strTruthy mk_arg then mk_arg
        else env.FEDERATED_MASTER_SECRET) = true := by
      by_cases ha : strTruthy mk_arg
      · rw [if_pos ha]; exact ha
      · rw [if_neg ha]
        rcases hmk with h | h
        · exact absurd h ha
        · exact h
    simp only [secureSyncInit]
    rw [if_neg (by simp [hm]), if_pos haes, hdec]
    show (if key.length = 32 then (Except.ok key : Except InitError (List Nat))
      else .error .invalidAesKey) = .ok key
    rw [if_pos hlen]
  · intro key h
    simp only [secureSyncInit] at h
    by_cases hm : strTruthy (if strTruthy mk_arg then mk_arg
        else env.FEDERATED_MASTER_SECRET) = true
    · rw [if_neg (by simp [hm])] at h
      refine ⟨?_, ?_⟩
      · by_cases ha : strTruthy mk_arg
        · exact Or.inl ha
        · right
          rw [if_neg ha] at hm
          exact hm
      · by_cases haes : strTruthy env.FEDERATED_AES_KEY
        · rw [if_pos haes] at h
          left
          refine ⟨haes, ?_⟩
          cases hdec : b64DecodeBytes ((env.FEDERATED_AES_KEY.getD "").data) with
          | none => rw [hdec] at h; simp at h
          | some k2 =>
            rw [hdec] at h
            replace h : (if k2.length = 32 then (Except.ok k2 : Except InitError (List Nat))
                else .error .invalidAesKey) = .ok key := h
            by_cases hl : k2.length = 32
            · rw [if_pos hl] at h
              injection h with h
              subst h
              exact ⟨rfl, hl⟩
            · rw [if_neg hl] at h; simp at h
        · rw [if_neg haes] at h
          right
          refine ⟨by simpa using haes, ?_⟩
          cases hs : env.FEDERATED_SALT with
          | none => rw [hs] at h; simp at h
          | some salt_hex =>
            rw [hs] at h
            replace h : (if salt_hex = ""
                then (Except.error InitError.missingSalt : Except InitError (List Nat))
                else match hexDecode salt_hex.data with
                  | none => Except.error InitError.invalidSalt
                  | some salt =>
                    if salt.length < 16 then Except.error InitError.invalidSalt
                    else Except.ok (pbkdf2Sha256
                      (((if strTruthy mk_arg then mk_arg
                        else env.FEDERATED_MASTER_SECRET).getD "").data.map Char.toNat)
                      salt)) = .ok key := h
            by_cases hsh : salt_hex = ""
            · rw [if_pos hsh] at h; simp at h
            · rw [if_neg hsh] at h
              cases hx : hexDecode salt_hex.data with
              | none => rw [hx] at h; simp at h
              | some salt =>
                rw [hx] at h
                replace h : (if salt.length < 16
                    then (Except.error InitError.invalidSalt : Except InitError (List Nat))
                    else Except.ok (pbkdf2Sha256
                      (((if strTruthy mk_arg then mk_arg
                        else env.FEDERATED_MASTER_SECRET).getD "").data.map Char.toNat)
                      salt)) = .ok key := h
                by_cases hsl : salt.length < 16
                · rw [if_pos hsl] at h; simp at h
                · rw [if_neg hsl] at h
                  injection h with h
                  exact ⟨salt_hex, salt, rfl, hsh, hx, by omega, h.symm⟩
    · rw [if_pos (by simpa using hm)] at h
      simp at h

/-- **C3 (witness).**  With master secret `"master"` and the sample
32-byte direct key and no salt at all, construction succeeds with the
key verbatim. -/
theorem secure_sync_init_spec_witness :
    strTruthy (some "master") = true ∧
    strTruthy (some sampleAesKeyB64) = true ∧
    b64DecodeBytes sampleAesKeyB64.data = some (List.replicate 32 0) ∧
    (List.replicate 32 (0:Nat)).length = 32 ∧
    secureSyncInit ⟨some "master", some sampleAesKeyB64, none⟩ none =
      .ok (List.replicate 32 0) :=
  ⟨by decide, by decide, by decide, by decide,
    (secure_sync_init_spec ⟨some "master", some sampleAesKeyB64, none⟩ none).2.1
      (List.replicate 32 0) (Or.inr (by decide)) (by decide) (by decide) (by decide)⟩

/-! ## JSON canonicalisation (`json.dumps(..., sort_keys=True)` /
`json.loads`)

`encrypt_model_update` serialises the payload with
`json.dumps(model_data, sort_keys=True)` (default separators `", "`
and `": "`) and `decrypt_model_update` parses it back with
`json.loads`.  The payload grammar is modelled by `Json`: numbers are
canonical decimal literals (the shape `repr` gives every float a
ModelWeights can contain), strings are plain ASCII without escapes
(the shape of every ModelWeights field name and value), and objects
are association lists held in strictly sorted key order — the
canonical representative of a Python dict under `sort_keys=True`
(Python dict equality is key-set based, so the sorted list is a
faithful representation).  The well-formedness predicate `wfJson`
states exactly these conditions. -/

/-- The double-quote character. -/
def quoteChar : Char := Char.ofNat 34

/-- The backslash character. -/
def backslashChar : Char := Char.ofNat 92

/-- The opening-brace character. -/
def lbraceChar : Char := Char.ofNat 123

/-- The closing-brace character. -/
def rbraceChar : Char := Char.ofNat 125

/-- A canonical decimal number literal: sign, integer digits, optional
fraction digits (empty = integer literal). -/
structure JNum where
  neg : Bool
  intDigits : List Nat
  fracDigits : List Nat
deriving Repr, DecidableEq

/-- A JSON value. -/
inductive Json where
  | null
  | bool (b : Bool)
  | num (n : JNum)
  | str (s : List Char)
  | arr (elems : List Json)
  | obj (fields : List (List Char × Json))

/-- A character that serialises to itself inside a JSON string:
printable ASCII, not the quote, not the backslash. -/
def plainChar (c : Char) : Bool :=
  (32 ≤ c.toNat && c.toNat < 127) && !(c = quoteChar) && !(c = backslashChar)

/-- Well-formed number: non-empty integer part, digit values < 10. -/
def wfNum (n : JNum) : Bool :=
  !n.intDigits.isEmpty && n.intDigits.all (· < 10) && n.fracDigits.all (· < 10)

/-- Strict lexicographic order on keys (Python string `<` on ASCII). -/
def keyLt : List Char → List Char → Bool
  | [], [] => false
  | [], _ :: _ => true
  | _ :: _, [] => false
  | a :: as, b :: bs =>
    if a.toNat < b.toNat then true
    else if a.toNat = b.toNat then keyLt as bs
    else false

/-- Strictly sorted key list. -/
def sortedKeys : List (List Char) → Bool
  | [] => true
  | [_] => true
  | a :: b :: rest => keyLt a b && sortedKeys (b :: rest)

mutual

/-- Well-formedness of a payload value (see the section comment). -/
def wfJson : Json → Bool
  | .null => true
  | .bool _ => true
  | .num n => wfNum n
  | .str s => s.all plainChar
  | .arr xs => wfList xs
  | .obj kvs => wfFields kvs && sortedKeys (kvs.map (fun kv => kv.1))

/-- All elements well-formed. -/
def wfList : List Json → Bool
  | [] => true
  | x :: xs => wfJson x && wfList xs

/-- All keys plain, all values well-formed. -/
def wfFields : List (List Char × Json) → Bool
  | [] => true
  | (k, v) :: rest => k.all plainChar && wfJson v && wfFields rest

end

/-- The character of a decimal digit. -/
def digitChar (d : Nat) : Char := Char.ofNat (48 + d)

/-- Serialisation of a number literal. -/
def printNum (n : JNum) : List Char :=
  (if n.neg then ['-'] else []) ++ n.intDigits.map digitChar ++
    (if n.fracDigits.isEmpty then [] else '.' :: n.fracDigits.map digitChar)

mutual

/-- `json.dumps` with `sort_keys=True` and the default separators
`", "` and `": "`, on the canonical (already key-sorted) value. -/
def printJson : Json → List Char
  | .null => "null".data
  | .bool true => "true".data
  | .bool false => "false".data
  | .num n => printNum n
  | .str s => quoteChar :: s ++ [quoteChar]
  | .arr [] => ['[', ']']
  | .arr (x :: xs) => '[' :: (printJson x ++ printList xs ++ [']'])
  | .obj [] => [lbraceChar, rbraceChar]
  | .obj ((k, v) :: rest) =>
    lbraceChar :: (quoteChar :: k ++ quoteChar :: ':' :: ' ' :: printJson v ++
      printFields rest ++ [rbraceChar])

/-- Remaining array elements, each preceded by `", "`. -/
def printList : List Json → List Char
  | [] => []
  | x :: xs => ',' :: ' ' :: (printJson x ++ printList xs)

/-- Remaining object fields, each preceded by `", "`. -/
def printFields : List (List Char × Json) → List Char
  | [] => []
  | (k, v) :: rest =>
    ',' :: ' ' :: quoteChar :: k ++ quoteChar :: ':' :: ' ' :: printJson v ++
      printFields rest

end

mutual

/-- Structural size of a value (a lower bound on parser fuel). -/
def sizeJ : Json → Nat
  | .null => 1
  | .bool _ => 1
  | .num _ => 1
  | .str _ => 1
  | .arr xs => 1 + sizeL xs
  | .obj kvs => 1 + sizeF kvs

/-- Size of an element list. -/
def sizeL : List Json → Nat
  | [] => 1
  | x :: xs => 1 + sizeJ x + sizeL xs

/-- Size of a field list. -/
def sizeF : List (List Char × Json) → Nat
  | [] => 1
  | (_, v) :: rest => 1 + sizeJ v + sizeF rest

end

/-- JSON whitespace. -/
def isWsChar (c : Char) : Bool :=
  c = ' ' || c = Char.ofNat 9 || c = Char.ofNat 10 || c = Char.ofNat 13

/-- Skip leading whitespace. -/
def skipWs : List Char → List Char
  | [] => []
  | c :: rest => if isWsChar c then skipWs rest else c :: rest

/-- Read a maximal run of decimal digits (as digit values). -/
def parseDigits : List Char → List Nat × List Char
  | [] => ([], [])
  | c :: rest =>
    if c.isDigit then
      let p := parseDigits rest
      ((c.toNat - 48) :: p.1, p.2)
    else ([], c :: rest)

/-- Parse a number literal (optional sign, digits, optional fraction;
the grammar `repr` of a float / an int literal uses). -/
def parseNum (s : List Char) : Option (JNum × List Char) :=
  let p0 : Bool × List Char :=
    match s with
    | c :: rest => if c = '-' then (true, rest) else (false, c :: rest)
    | [] => (false, [])
  let p1 := parseDigits p0.2
  if p1.1.isEmpty then none
  else
    match p1.2 with
    | '.' :: s3 =>
      let p2 := parseDigits s3
      if p2.1.isEmpty then none else some (⟨p0.1, p1.1, p2.1⟩, p2.2)
    | _ => some (⟨p0.1, p1.1, []⟩, p1.2)

/-- Read a string body up to the closing quote (plain characters
only; the escapes `json.loads` would additionally accept never occur
in the canonical serialisations considered here). -/
def parseStringRest : List Char → Option (List Char × List Char)
  | [] => none
  | c :: rest =>
    if c = quoteChar then some ([], rest)
    else if c = backslashChar then none
    else
      match parseStringRest rest with
      | some (content, r) => some (c :: content, r)
      | none => none

mutual

/-- `json.loads`-style recursive-descent value parser (fuel-indexed;
any fuel ≥ the structural size of the value suffices). -/
def parseJson : Nat → List Char → Option (Json × List Char)
  | 0, _ => none
  | fuel + 1, s0 =>
    match skipWs s0 with
    | [] => none
    | c :: rest =>
      if c = quoteChar then
        match parseStringRest rest with
        | some (content, r) => some (.str content, r)
        | none => none
      else if c = lbraceChar then parseObjBody fuel (skipWs rest)
      else if c = '[' then parseArrBody fuel (skipWs rest)
      else if c = 'n' then
        match rest with
        | 'u' :: 'l' :: 'l' :: r => some (.null, r)
        | _ => none
      else if c = 't' then
        match rest with
        | 'r' :: 'u' :: 'e' :: r => some (.bool true, r)
        | _ => none
      else if c = 'f' then
        match rest with
        | 'a' :: 'l' :: 's' :: 'e' :: r => some (.bool false, r)
        | _ => none
      else
        match parseNum (c :: rest) with
        | some (n, r) => some (.num n, r)
        | none => none

/-- Array body after `[` (and whitespace). -/
def parseArrBody : Nat → List Char → Option (Json × List Char)
  | 0, _ => none
  | fuel + 1, s =>
    match s with
    | [] => none
    | c :: rest =>
      if c = ']' then some (.arr [], rest)
      else
        match parseJson fuel (c :: rest) with
        | some (v, r) =>
          match parseArrItems fuel (skipWs r) with
          | some (vs, r2) => some (.arr (v :: vs), r2)
          | none => none
        | none => none

/-- Remaining array items, expecting `,` or `]`. -/
def parseArrItems : Nat → List Char → Option (List Json × List Char)
  | 0, _ => none
  | fuel + 1, s =>
    match s with
    | [] => none
    | c :: rest =>
      if c = ']' then some ([], rest)
      else if c = ',' then
        match parseJson fuel rest with
        | some (v, r) =>
          match parseArrItems fuel (skipWs r) with
          | some (vs, r2) => some (v :: vs, r2)
          | none => none
        | none => none
      else none

/-- One `"key": value` field. -/
def parseField : Nat → List Char → Option ((List Char × Json) × List Char)
  | 0, _ => none
  | fuel + 1, s =>
    match s with
    | [] => none
    | c :: rest =>
      if c = quoteChar then
        match parseStringRest rest with
        | some (k, r) =>
          match skipWs r with
          | ':' :: r2 =>
            match parseJson fuel (skipWs r2) with
            | some (v, r3) => some ((k, v), r3)
            | none => none
          | _ => none
        | none => none
      else none

/-- Object body after the opening brace (and whitespace). -/
def parseObjBody : Nat → List Char → Option (Json × List Char)
  | 0, _ => none
  | fuel + 1, s =>
    match s with
    | [] => none
    | c :: _ =>
      if c = rbraceChar then some (.obj [], s.tail)
      else
        match parseField fuel s with
        | some (kv, r) =>
          match parseObjItems fuel (skipWs r) with
          | some (kvs, r2) => some (.obj (kv :: kvs), r2)
          | none => none
        | none => none

/-- Remaining object fields, expecting `,` or the closing brace. -/
def parseObjItems : Nat → List Char → Option (List (List Char × Json) × List Char)
  | 0, _ => none
  | fuel + 1, s =>
    match s with
    | [] => none
    | c :: rest =>
      if c = rbraceChar then some ([], rest)
      else if c = ',' then
        match parseField fuel (skipWs rest) with
        | some (kv, r) =>
          match parseObjItems fuel (skipWs r) with
          | some (kvs, r2) => some (kv :: kvs, r2)
          | none => none
        | none => none
      else none

end

/-- What may legally follow a printed value: nothing, or a list
separator / closing bracket / closing brace. -/
def restOkB : List Char → Bool
  | [] => true
  | c :: _ => c = ',' || c = ']' || c = rbraceChar

/-- The head of the input is not a digit. -/
def headNotDigit : List Char → Bool
  | [] => true
  | c :: _ => !c.isDigit

/-- The head of the input is not a dot. -/
def headNotDot : List Char → Bool
  | [] => true
  | c :: _ => !(c == '.')

/-- Facts about digit characters, by exhausting `d < 10`. -/
theorem digitChar_facts : ∀ d, d < 10 →
    (digitChar d).isDigit = true ∧ (digitChar d).toNat - 48 = d ∧
    isWsChar (digitChar d) = false ∧ ¬(digitChar d = quoteChar) ∧
    ¬(digitChar d = lbraceChar) ∧ ¬(digitChar d = '[') ∧
    ¬(digitChar d = 'n') ∧ ¬(digitChar d = 't') ∧ ¬(digitChar d = 'f') ∧
    ¬(digitChar d = '-') ∧ ¬(digitChar d = '.') ∧ ¬(digitChar d = ']') := by
  decide

/-- A legal follower is neither a digit nor a dot. -/
theorem restOkB_facts (rest : List Char) (h : restOkB rest = true) :
    headNotDigit rest = true ∧ headNotDot rest = true := by
  cases rest with
  | nil => exact ⟨rfl, rfl⟩
  | cons c s =>
    simp only [restOkB, Bool.or_eq_true, decide_eq_true_eq] at h
    rcases h with (rfl | rfl) | rfl <;> exact ⟨rfl, rfl⟩

/-- `skipWs` is idempotent. -/
theorem skipWs_idem (s : List Char) : skipWs (skipWs s) = skipWs s := by
  induction s with
  | nil => rfl
  | cons c rest ih =>
    by_cases h : isWsChar c = true
    · rw [skipWs, if_pos h]
      exact ih
    · rw [skipWs, if_neg h, skipWs, if_neg h]

/-- A non-whitespace head stops `skipWs`. -/
theorem skipWs_cons (c : Char) (s : List Char) (h : isWsChar c = false) :
    skipWs (c :: s) = c :: s := by
  rw [skipWs, h]
  simp

/-- `parseJson` pre-skips whitespace, so an outer `skipWs` is
harmless. -/
theorem parseJson_skipWs (f : Nat) (s : List Char) :
    parseJson (f + 1) (skipWs s) = parseJson (f + 1) s := by
  simp only [parseJson, skipWs_idem]

/-- Structural sizes are positive. -/
theorem sizeJ_pos (v : Json) : 1 ≤ sizeJ v := by
  cases v <;> simp [sizeJ]

/-- Element-list sizes are positive. -/
theorem sizeL_pos (xs : List Json) : 1 ≤ sizeL xs := by
  cases xs <;> (simp [sizeL]; try omega)

/-- Field-list sizes are positive. -/
theorem sizeF_pos (kvs : List (List Char × Json)) : 1 ≤ sizeF kvs := by
  cases kvs with
  | nil => simp [sizeF]
  | cons kv rest => obtain ⟨k, v⟩ := kv; simp [sizeF]; omega

/-- A printed value never starts with whitespace. -/
theorem printJson_head_notWs (v : Json) (hwf : wfJson v = true) (t : List Char) :
    skipWs (printJson v ++ t) = printJson v ++ t := by
  cases v with
  | null => exact skipWs_cons _ _ (by decide)
  | bool b => cases b <;> exact skipWs_cons _ _ (by decide)
  | str s => exact skipWs_cons _ _ (by decide)
  | arr xs => cases xs <;> exact skipWs_cons _ _ (by decide)
  | obj kvs =>
    cases kvs with
    | nil => exact skipWs_cons _ _ (by decide)
    | cons kv rest => obtain ⟨k, v⟩ := kv; exact skipWs_cons _ _ (by decide)
  | num n =>
    obtain ⟨neg, ints, fracs⟩ := n
    cases neg with
    | true => exact skipWs_cons _ _ (by decide)
    | false =>
      simp only [wfJson, wfNum, Bool.and_eq_true] at hwf
      cases ints with
      | nil => simp at hwf
      | cons d ds =>
        have hd : d < 10 := by
          have h2 := hwf.1.2
          simp only [List.all_cons, Bool.and_eq_true, decide_eq_true_eq] at h2
          exact h2.1
        simp only [printJson, printNum, Bool.false_eq_true, if_false, List.nil_append,
          List.map_cons, List.cons_append, List.append_assoc]
        exact skipWs_cons _ _ (digitChar_facts d hd).2.2.1

/-- Reading back a printed digit run. -/
theorem parseDigits_print (ds : List Nat) (rest : List Char)
    (hds : ds.all (· < 10) = true) (hrest : headNotDigit rest = true) :
    parseDigits (ds.map digitChar ++ rest) = (ds, rest) := by
  induction ds with
  | nil =>
    cases rest with
    | nil => rfl
    | cons c s =>
      simp only [headNotDigit, Bool.not_eq_true'] at hrest
      simp [parseDigits, hrest]
  | cons d ds ih =>
    simp only [List.all_cons, Bool.and_eq_true, decide_eq_true_eq] at hds
    obtain ⟨hfact1, hfact2, -⟩ := digitChar_facts d hds.1
    simp only [List.map_cons, List.cons_append, parseDigits, hfact1, if_true,
      List.append_eq]
    rw [ih hds.2, hfact2]

/-- Reading back a printed string body. -/
theorem parseStringRest_print (s rest : List Char) (h : s.all plainChar = true) :
    parseStringRest (s ++ quoteChar :: rest) = some (s, rest) := by
  induction s with
  | nil =>
    simp [parseStringRest]
  | cons c cs ih =>
    simp only [List.all_cons, Bool.and_eq_true] at h
    have hq : ¬(c = quoteChar) := by
      intro hc
      subst hc
      simp [plainChar] at h
    have hb : ¬(c = backslashChar) := by
      intro hc
      subst hc
      simp [plainChar] at h
    simp only [List.cons_append, parseStringRest, if_neg hq, if_neg hb, List.append_eq]
    rw [ih h.2]

/-- Reading back a printed number literal. -/
theorem parseNum_print (n : JNum) (rest : List Char) (hwf : wfNum n = true)
    (hrest : restOkB rest = true) :
    parseNum (printNum n ++ rest) = some (n, rest) := by
  obtain ⟨neg, ints, fracs⟩ := n
  simp only [wfNum, Bool.and_eq_true, Bool.not_eq_true'] at hwf
  obtain ⟨⟨hne, hints⟩, hfracs⟩ := hwf
  obtain ⟨hnd, hdot⟩ := restOkB_facts rest hrest
  have hfracCase : headNotDigit ((if fracs.isEmpty then []
      else '.' :: fracs.map digitChar) ++ rest) = true := by
    by_cases hf : fracs.isEmpty
    · rw [if_pos hf, List.nil_append]
      exact hnd
    · rw [if_neg hf, List.cons_append]
      rfl
  cases neg with
  | false =>
    obtain ⟨d, ds, rfl⟩ : ∃ d ds, ints = d :: ds := by
      cases ints with
      | nil => simp at hne
      | cons d ds => exact ⟨d, ds, rfl⟩
    have hd : d < 10 := by
      simp only [List.all_cons, Bool.and_eq_true, decide_eq_true_eq] at hints
      exact hints.1
    have hdash : ¬(digitChar d = '-') :=
      (digitChar_facts d hd).2.2.2.2.2.2.2.2.2.1
    simp only [printNum, Bool.false_eq_true, if_false, List.nil_append, List.map_cons,
      List.cons_append, List.append_assoc]
    simp only [parseNum, if_neg hdash]
    rw [← List.cons_append, ← List.map_cons,
      parseDigits_print (d :: ds) _ hints hfracCase]
    simp only [List.isEmpty_cons, Bool.false_eq_true, if_false]
    by_cases hf : fracs.isEmpty
    · obtain rfl : fracs = [] := by
        cases fracs
        · rfl
        · simp at hf
      rw [if_pos hf, List.nil_append]
      split
      · simp [headNotDot] at hdot
      · rfl
    · obtain ⟨f0, fs, rfl⟩ : ∃ f0 fs, fracs = f0 :: fs := by
        cases fracs with
        | nil => simp at hf
        | cons f0 fs => exact ⟨f0, fs, rfl⟩
      rw [if_neg hf, List.cons_append]
      split
      · next s3 heq =>
        obtain rfl : (f0 :: fs).map digitChar ++ rest = s3 := (List.cons.injEq _ _ _ _).mp heq |>.2
        rw [parseDigits_print (f0 :: fs) rest hfracs hnd]
        simp only [List.isEmpty_cons, Bool.false_eq_true, if_false]
      · next hno =>
        exact absurd rfl (hno _)
  | true =>
    have hp : printNum ⟨true, ints, fracs⟩ =
        '-' :: (ints.map digitChar ++
          (if fracs.isEmpty then [] else '.' :: fracs.map digitChar)) := by
      simp [printNum]
    rw [hp, List.cons_append, List.append_assoc]
    simp only [parseNum, if_true]
    rw [parseDigits_print ints _ hints hfracCase]
    simp only [hne, Bool.false_eq_true, if_false]
    by_cases hf : fracs.isEmpty
    · obtain rfl : fracs = [] := by
        cases fracs
        · rfl
        · simp at hf
      rw [if_pos hf, List.nil_append]
      split
      · simp [headNotDot] at hdot
      · rfl
    · obtain ⟨f0, fs, rfl⟩ : ∃ f0 fs, fracs = f0 :: fs := by
        cases fracs with
        | nil => simp at hf
        | cons f0 fs => exact ⟨f0, fs, rfl⟩
      rw [if_neg hf, List.cons_append]
      split
      · next s3 heq =>
        obtain rfl : (f0 :: fs).map digitChar ++ rest = s3 := (List.cons.injEq _ _ _ _).mp heq |>.2
        rw [parseDigits_print (f0 :: fs) rest hfracs hnd]
        simp only [List.isEmpty_cons, Bool.false_eq_true, if_false]
      · next hno =>
        exact absurd rfl (hno _)

/-- A printed number starts with a character that cannot be mistaken
for whitespace or any other value's first token. -/
theorem printNum_head (n : JNum) (hwf : wfNum n = true) :
    ∃ c tail, printNum n = c :: tail ∧ isWsChar c = false ∧ ¬(c = quoteChar) ∧
      ¬(c = lbraceChar) ∧ ¬(c = '[') ∧ ¬(c = 'n') ∧ ¬(c = 't') ∧ ¬(c = 'f') ∧
      ¬(c = ']') := by
  obtain ⟨neg, ints, fracs⟩ := n
  simp only [wfNum, Bool.and_eq_true, Bool.not_eq_true'] at hwf
  obtain ⟨⟨hne, hints⟩, -⟩ := hwf
  cases neg with
  | true =>
    refine ⟨'-', ints.map digitChar ++
      (if fracs.isEmpty then [] else '.' :: fracs.map digitChar), ?_, by decide,
      by decide, by decide, by decide, by decide, by decide, by decide, by decide⟩
    simp [printNum]
  | false =>
    obtain ⟨d, ds, rfl⟩ : ∃ d ds, ints = d :: ds := by
      cases ints with
      | nil => simp at hne
      | cons d ds => exact ⟨d, ds, rfl⟩
    have hd : d < 10 := by
      simp only [List.all_cons, Bool.and_eq_true, decide_eq_true_eq] at hints
      exact hints.1
    obtain ⟨-, -, hws, hq, hlb, hbr, hn, ht, hf, -, -, hrb⟩ := digitChar_facts d hd
    refine ⟨digitChar d, ds.map digitChar ++
      (if fracs.isEmpty then [] else '.' :: fracs.map digitChar), ?_, hws, hq, hlb,
      hbr, hn, ht, hf, hrb⟩
    simp [printNum]

/-- A printed value starts with a character other than `]` (and not
whitespace). -/
theorem printJson_head_ne_rbracket (v : Json) (hwf : wfJson v = true) :
    ∃ c tail, printJson v = c :: tail ∧ isWsChar c = false ∧ ¬(c = ']') := by
  cases v with
  | null => exact ⟨'n', _, rfl, by decide, by decide⟩
  | bool b => cases b
              · exact ⟨'f', _, rfl, by decide, by decide⟩
              · exact ⟨'t', _, rfl, by decide, by decide⟩
  | str s => exact ⟨quoteChar, _, rfl, by decide, by decide⟩
  | arr xs =>
    cases xs with
    | nil => exact ⟨'[', _, rfl, by decide, by decide⟩
    | cons x xs => exact ⟨'[', _, rfl, by decide, by decide⟩
  | obj kvs =>
    cases kvs with
    | nil => exact ⟨lbraceChar, _, rfl, by decide, by decide⟩
    | cons kv rest =>
      obtain ⟨k, v⟩ := kv
      exact ⟨lbraceChar, _, rfl, by decide, by decide⟩
  | num n =>
    obtain ⟨c, tail, hct, hws, -, -, -, -, -, -, hrb⟩ :=
      printNum_head n (by simpa [wfJson] using hwf)
    exact ⟨c, tail, hct, hws, hrb⟩

/-- Text that follows an array element is a legal follower. -/
theorem restOkB_printList (xs : List Json) (r : List Char) :
    restOkB (printList xs ++ ']' :: r) = true := by
  cases xs with
  | nil => rfl
  | cons x xs => rfl

/-- Text that follows an object value is a legal follower. -/
theorem restOkB_printFields (kvs : List (List Char × Json)) (r : List Char) :
    restOkB (printFields kvs ++ rbraceChar :: r) = true := by
  cases kvs with
  | nil => rfl
  | cons kv rest => obtain ⟨k, v⟩ := kv; rfl

/-- Item-separator text is whitespace-free at its head. -/
theorem skipWs_printList (xs : List Json) (r : List Char) :
    skipWs (printList xs ++ ']' :: r) = printList xs ++ ']' :: r := by
  cases xs with
  | nil => exact skipWs_cons _ _ (by decide)
  | cons x xs => exact skipWs_cons _ _ (by decide)

/-- Field-separator text is whitespace-free at its head. -/
theorem skipWs_printFields (kvs : List (List Char × Json)) (r : List Char) :
    skipWs (printFields kvs ++ rbraceChar :: r) = printFields kvs ++ rbraceChar :: r := by
  cases kvs with
  | nil => exact skipWs_cons _ _ (by decide)
  | cons kv rest => obtain ⟨k, v⟩ := kv; exact skipWs_cons _ _ (by decide)

/-- A leading whitespace character is ignored by `parseJson`. -/
theorem parseJson_cons_ws (g : Nat) (c : Char) (s : List Char)
    (h : isWsChar c = true) :
    parseJson (g + 1) (c :: s) = parseJson (g + 1) s := by
  simp only [parseJson, skipWs, h, if_true]

/-- Behaviour of `parseField` on a printed `"key": ` prefix. -/
theorem parseField_eq (g : Nat) (k T : List Char)
    (hk : k.all plainChar = true) (hT : skipWs T = T) :
    parseField (g + 1) (quoteChar :: (k ++ quoteChar :: ':' :: ' ' :: T)) =
      match parseJson g T with
      | some (v, r3) => some ((k, v), r3)
      | none => none := by
  have hsp : skipWs (' ' :: T) = T := by
    rw [skipWs, if_pos (by decide)]
    exact hT
  have hcol : skipWs (':' :: ' ' :: T) = ':' :: ' ' :: T := skipWs_cons _ _ (by decide)
  simp only [parseField, parseStringRest_print k (':' :: ' ' :: T) hk, hcol, hsp,
    if_true]

mutual

/-- Parsing inverts printing: with fuel at least the structural size,
`parseJson` recovers the printed value exactly and leaves the legal
remainder untouched (the `loads ∘ dumps` identity). -/
theorem parseJson_print : ∀ (v : Json) (fuel : Nat) (rest : List Char),
    wfJson v = true → sizeJ v ≤ fuel → restOkB rest = true →
    parseJson fuel (printJson v ++ rest) = some (v, rest)
  | .null, fuel, rest => by
    intro hwf hfuel hrest
    obtain ⟨f, rfl⟩ : ∃ f, fuel = f + 1 := by
      cases fuel with
      | zero => exact absurd hfuel (by simp [sizeJ])
      | succ f => exact ⟨f, rfl⟩
    show parseJson (f + 1) ('n' :: 'u' :: 'l' :: 'l' :: rest) = _
    simp only [parseJson]
    rw [skipWs_cons _ _ (by decide)]
    simp
    rw [if_neg (by decide), if_neg (by decide)]
  | .bool true, fuel, rest => by
    intro hwf hfuel hrest
    obtain ⟨f, rfl⟩ : ∃ f, fuel = f + 1 := by
      cases fuel with
      | zero => exact absurd hfuel (by simp [sizeJ])
      | succ f => exact ⟨f, rfl⟩
    show parseJson (f + 1) ('t' :: 'r' :: 'u' :: 'e' :: rest) = _
    simp only [parseJson]
    rw [skipWs_cons _ _ (by decide)]
    simp
    rw [if_neg (by decide), if_neg (by decide)]
  | .bool false, fuel, rest => by
    intro hwf hfuel hrest
    obtain ⟨f, rfl⟩ : ∃ f, fuel = f + 1 := by
      cases fuel with
      | zero => exact absurd hfuel (by simp [sizeJ])
      | succ f => exact ⟨f, rfl⟩
    show parseJson (f + 1) ('f' :: 'a' :: 'l' :: 's' :: 'e' :: rest) = _
    simp only [parseJson]
    rw [skipWs_cons _ _ (by decide)]
    simp
    rw [if_neg (by decide), if_neg (by decide)]
  | .str s, fuel, rest => by
    intro hwf hfuel hrest
    obtain ⟨f, rfl⟩ : ∃ f, fuel = f + 1 := by
      cases fuel with
      | zero => exact absurd hfuel (by simp [sizeJ])
      | succ f => exact ⟨f, rfl⟩
    have hs : printJson (.str s) ++ rest = quoteChar :: (s ++ quoteChar :: rest) := by
      simp [printJson]
    rw [hs]
    have hsk : skipWs (quoteChar :: (s ++ quoteChar :: rest)) =
        quoteChar :: (s ++ quoteChar :: rest) := skipWs_cons _ _ (by decide)
    simp only [parseJson, hsk, if_pos rfl]
    rw [parseStringRest_print s rest (by simpa [wfJson] using hwf)]
    simp
  | .num n, fuel, rest => by
    intro hwf hfuel hrest
    obtain ⟨f, rfl⟩ : ∃ f, fuel = f + 1 := by
      cases fuel with
      | zero => exact absurd hfuel (by simp [sizeJ])
      | succ f => exact ⟨f, rfl⟩
    have hwfn : wfNum n = true := by simpa [wfJson] using hwf
    obtain ⟨c, tail, hct, hws, h1, h2, h3, h4, h5, h6, -⟩ := printNum_head n hwfn
    show parseJson (f + 1) (printNum n ++ rest) = some (.num n, rest)
    rw [hct, List.cons_append]
    have hsk : skipWs (c :: (tail ++ rest)) = c :: (tail ++ rest) :=
      skipWs_cons _ _ hws
    simp only [parseJson, hsk]
    rw [if_neg h1, if_neg h2, if_neg h3, if_neg h4, if_neg h5, if_neg h6]
    rw [← List.cons_append, ← hct, parseNum_print n rest hwfn hrest]
  | .arr [], fuel, rest => by
    intro hwf hfuel hrest
    have hsz : sizeJ (.arr []) = 2 := rfl
    obtain ⟨g, rfl⟩ : ∃ g, fuel = g + 2 := by
      match fuel, hfuel with
      | f + 2, _ => exact ⟨f, rfl⟩
    show parseJson (g + 1 + 1) ('[' :: ']' :: rest) = _
    have hsk : skipWs ('[' :: ']' :: rest) = '[' :: ']' :: rest :=
      skipWs_cons _ _ (by decide)
    simp only [parseJson, hsk]
    rw [if_neg (by decide), if_neg (by decide)]
    simp only [if_true]
    rw [skipWs_cons _ _ (by decide)]
    simp [parseArrBody]
  | .arr (x :: xs), fuel, rest => by
    intro hwf hfuel hrest
    have hsz : sizeJ (.arr (x :: xs)) = 1 + (1 + sizeJ x + sizeL xs) := rfl
    have hpx := sizeJ_pos x
    have hpxs := sizeL_pos xs
    obtain ⟨g, rfl⟩ : ∃ g, fuel = g + 2 := by
      match fuel, hfuel with
      | f + 2, _ => exact ⟨f, rfl⟩
      | 1, hf => rw [hsz] at hf; omega
      | 0, hf => rw [hsz] at hf; omega
    simp only [wfJson, wfList, Bool.and_eq_true] at hwf
    show parseJson (g + 1 + 1) (printJson (.arr (x :: xs)) ++ rest) = _
    simp only [printJson, List.cons_append, List.append_assoc, List.singleton_append,
      List.nil_append]
    have hsk : skipWs ('[' :: (printJson x ++ (printList xs ++ ']' :: rest))) =
        '[' :: (printJson x ++ (printList xs ++ ']' :: rest)) :=
      skipWs_cons _ _ (by decide)
    simp only [parseJson, hsk]
    rw [if_neg (by decide), if_neg (by decide)]
    simp only [if_true]
    rw [printJson_head_notWs x hwf.1]
    obtain ⟨c, tail, hct, -, hnb⟩ := printJson_head_ne_rbracket x hwf.1
    rw [hct, List.cons_append]
    simp only [parseArrBody]
    rw [if_neg hnb]
    rw [← List.cons_append, ← hct]
    rw [parseJson_print x g _ hwf.1 (by rw [hsz] at hfuel; omega)
      (restOkB_printList xs rest)]
    show (match parseArrItems g (skipWs (printList xs ++ ']' :: rest)) with
      | some (vs, r2) => some ((Json.arr (x :: vs) : Json), r2)
      | none => none) = some (.arr (x :: xs), rest)
    rw [skipWs_printList,
      parseArrItems_print xs g rest hwf.2 (by rw [hsz] at hfuel; omega)]
  | .obj [], fuel, rest => by
    intro hwf hfuel hrest
    have hsz : sizeJ (.obj []) = 2 := rfl
    obtain ⟨g, rfl⟩ : ∃ g, fuel = g + 2 := by
      match fuel, hfuel with
      | f + 2, _ => exact ⟨f, rfl⟩
    show parseJson (g + 1 + 1) (lbraceChar :: rbraceChar :: rest) = _
    have hsk : skipWs (lbraceChar :: rbraceChar :: rest) =
        lbraceChar :: rbraceChar :: rest := skipWs_cons _ _ (by decide)
    simp only [parseJson, hsk]
    rw [if_neg (by decide)]
    simp only [if_true]
    rw [skipWs_cons _ _ (by decide)]
    simp [parseObjBody]
  | .obj ((k, v) :: kvs), fuel, rest => by
    intro hwf hfuel hrest
    have hsz : sizeJ (.obj ((k, v) :: kvs)) = 1 + (1 + sizeJ v + sizeF kvs) := rfl
    have hpv := sizeJ_pos v
    have hpk := sizeF_pos kvs
    obtain ⟨h, rfl⟩ : ∃ h, fuel = h + 3 := by
      match fuel, hfuel with
      | f + 3, _ => exact ⟨f, rfl⟩
      | 2, hf => rw [hsz] at hf; omega
      | 1, hf => rw [hsz] at hf; omega
      | 0, hf => rw [hsz] at hf; omega
    simp only [wfJson, wfFields, Bool.and_eq_true] at hwf
    have hwfv : wfJson v = true := hwf.1.1.2
    have hk : k.all plainChar = true := hwf.1.1.1
    have hwfr : wfFields kvs = true := hwf.1.2
    show parseJson (h + 1 + 1 + 1) (printJson (.obj ((k, v) :: kvs)) ++ rest) = _
    simp only [printJson, List.cons_append, List.append_assoc, List.singleton_append,
      List.nil_append]
    have hsk : skipWs (lbraceChar :: (quoteChar :: (k ++
        (quoteChar :: ':' :: ' ' :: (printJson v ++
          (printFields kvs ++ rbraceChar :: rest)))))) =
        lbraceChar :: (quoteChar :: (k ++ (quoteChar :: ':' :: ' ' ::
          (printJson v ++ (printFields kvs ++ rbraceChar :: rest))))) :=
      skipWs_cons _ _ (by decide)
    simp only [parseJson, hsk]
    rw [if_neg (by decide)]
    simp only [if_true]
    rw [skipWs_cons _ _ (by decide)]
    simp only [parseObjBody]
    rw [if_neg (by decide)]
    rw [parseField_eq h k _ hk (printJson_head_notWs v hwfv _)]
    rw [parseJson_print v h _ hwfv (by rw [hsz] at hfuel; omega)
      (restOkB_printFields kvs rest)]
    show (match parseObjItems (h + 1) (skipWs (printFields kvs ++
        rbraceChar :: rest)) with
      | some (kvs2, r2) => some ((Json.obj ((k, v) :: kvs2) : Json), r2)
      | none => none) = some (.obj ((k, v) :: kvs), rest)
    rw [skipWs_printFields,
      parseObjItems_print kvs (h + 1) rest hwfr (by rw [hsz] at hfuel; omega)]
termination_by v => sizeJ v
decreasing_by all_goals (simp [sizeJ, sizeL, sizeF]; try omega)

/-- Remaining printed array items parse back exactly. -/
theorem parseArrItems_print : ∀ (xs : List Json) (fuel : Nat) (rest : List Char),
    wfList xs = true → sizeL xs ≤ fuel →
    parseArrItems fuel (printList xs ++ ']' :: rest) = some (xs, rest)
  | [], fuel, rest => by
    intro hwf hfuel
    obtain ⟨g, rfl⟩ : ∃ g, fuel = g + 1 := by
      cases fuel with
      | zero => exact absurd hfuel (by simp [sizeL])
      | succ g => exact ⟨g, rfl⟩
    show parseArrItems (g + 1) (']' :: rest) = _
    simp [parseArrItems]
  | x :: xs, fuel, rest => by
    intro hwf hfuel
    simp only [wfList, Bool.and_eq_true] at hwf
    have hsz : sizeL (x :: xs) = 1 + sizeJ x + sizeL xs := rfl
    have hpx := sizeJ_pos x
    have hpxs := sizeL_pos xs
    obtain ⟨g, rfl⟩ : ∃ g, fuel = g + 2 := by
      match fuel, hfuel with
      | f + 2, _ => exact ⟨f, rfl⟩
      | 1, hf => rw [hsz] at hf; omega
      | 0, hf => rw [hsz] at hf; omega
    show parseArrItems (g + 1 + 1)
      (printList (x :: xs) ++ ']' :: rest) = _
    simp only [printList, List.cons_append, List.append_assoc, List.nil_append]
    simp only [parseArrItems]
    rw [if_neg (by decide)]
    simp only [if_true]
    rw [parseJson_cons_ws g _ _ (by decide)]
    rw [parseJson_print x (g + 1) _ hwf.1 (by rw [hsz] at hfuel; omega)
      (restOkB_printList xs rest)]
    show (match parseArrItems (g + 1) (skipWs (printList xs ++ ']' :: rest)) with
      | some (vs, r2) => some ((x :: vs : List Json), r2)
      | none => none) = some (x :: xs, rest)
    rw [skipWs_printList, parseArrItems_print xs (g + 1) rest hwf.2
      (by rw [hsz] at hfuel; omega)]
termination_by xs => sizeL xs
decreasing_by all_goals (simp [sizeJ, sizeL, sizeF]; try omega)

/-- Remaining printed object fields parse back exactly. -/
theorem parseObjItems_print : ∀ (kvs : List (List Char × Json)) (fuel : Nat)
    (rest : List Char), wfFields kvs = true → sizeF kvs ≤ fuel →
    parseObjItems fuel (printFields kvs ++ rbraceChar :: rest) = some (kvs, rest)
  | [], fuel, rest => by
    intro hwf hfuel
    obtain ⟨g, rfl⟩ : ∃ g, fuel = g + 1 := by
      cases fuel with
      | zero => exact absurd hfuel (by simp [sizeF])
      | succ g => exact ⟨g, rfl⟩
    show parseObjItems (g + 1) (rbraceChar :: rest) = _
    simp [parseObjItems]
  | (k, v) :: kvs, fuel, rest => by
    intro hwf hfuel
    simp only [wfFields, Bool.and_eq_true] at hwf
    have hk : k.all plainChar = true := hwf.1.1
    have hwfv : wfJson v = true := hwf.1.2
    have hwfr : wfFields kvs = true := hwf.2
    have hsz : sizeF ((k, v) :: kvs) = 1 + sizeJ v + sizeF kvs := rfl
    have hpv := sizeJ_pos v
    have hpk := sizeF_pos kvs
    obtain ⟨g, rfl⟩ : ∃ g, fuel = g + 2 := by
      match fuel, hfuel with
      | f + 2, _ => exact ⟨f, rfl⟩
      | 1, hf => rw [hsz] at hf; omega
      | 0, hf => rw [hsz] at hf; omega
    show parseObjItems (g + 1 + 1)
      (printFields ((k, v) :: kvs) ++ rbraceChar :: rest) = _
    simp only [printFields, List.cons_append, List.append_assoc, List.nil_append]
    simp only [parseObjItems]
    rw [if_neg (by decide)]
    simp only [if_true]
    have hsw : skipWs (' ' :: (quoteChar :: (k ++ (quoteChar :: ':' :: ' ' ::
        (printJson v ++ (printFields kvs ++ rbraceChar :: rest)))))) =
        quoteChar :: (k ++ (quoteChar :: ':' :: ' ' ::
          (printJson v ++ (printFields kvs ++ rbraceChar :: rest)))) := by
      rw [skipWs, if_pos (by decide)]
      exact skipWs_cons _ _ (by decide)
    rw [hsw]
    rw [parseField_eq g k _ hk (printJson_head_notWs v hwfv _)]
    rw [parseJson_print v g _ hwfv (by rw [hsz] at hfuel; omega)
      (restOkB_printFields kvs rest)]
    show (match parseObjItems (g + 1) (skipWs (printFields kvs ++
        rbraceChar :: rest)) with
      | some (kvs2, r2) => some (((k, v) :: kvs2 :
          List (List Char × Json)), r2)
      | none => none) = some ((k, v) :: kvs, rest)
    rw [skipWs_printFields, parseObjItems_print kvs (g + 1) rest hwfr
      (by rw [hsz] at hfuel; omega)]
termination_by kvs => sizeF kvs
decreasing_by all_goals (simp [sizeJ, sizeL, sizeF]; try omega)

end

/-! ## Bytes, base64 round trip, and the AES-GCM layer

`encrypt_model_update` serialises the payload, encrypts with AES-GCM
under a fresh 12-byte nonce, and base64-encodes ciphertext and nonce;
`decrypt_model_update` inverts each step.  Strings are converted to
bytes with `.encode()` / `.decode()` (UTF-8, which on the ASCII text
the serialiser produces is the identity on code points). -/

/-- `str.encode()` on ASCII text: one byte per character. -/
def strToBytes (s : List Char) : List Nat := s.map Char.toNat

/-- `bytes.decode()` on ASCII bytes: one character per byte. -/
def bytesToStr (bs : List Nat) : List Char := bs.map Char.ofNat

/-- Decoding inverts encoding on any character list. -/
theorem bytesToStr_strToBytes (s : List Char) :
    bytesToStr (strToBytes s) = s := by
  induction s with
  | nil => rfl
  | cons c t ih =>
    simp only [bytesToStr, strToBytes, List.map_cons] at ih ⊢
    rw [Char.ofNat_toNat c, ih]

/-- A character whose code point fits in one byte. -/
def asciiB (c : Char) : Bool := decide (c.toNat < 256)

/-- Byte-boundedness distributes over append. -/
theorem asciiB_append (a b : List Char) (ha : a.all asciiB = true)
    (hb : b.all asciiB = true) : (a ++ b).all asciiB = true := by
  simp only [List.all_append, ha, hb, Bool.and_self]

/-- Byte-boundedness distributes over cons. -/
theorem asciiB_cons (c : Char) (s : List Char) (h : asciiB c = true)
    (hs : s.all asciiB = true) : (c :: s).all asciiB = true := by
  simp only [List.all_cons, h, hs, Bool.and_self]

/-- Plain string characters fit in one byte. -/
theorem plain_ascii (s : List Char) (h : s.all plainChar = true) :
    s.all asciiB = true := by
  simp only [List.all_eq_true] at h ⊢
  intro c hc
  have hp := h c hc
  simp only [plainChar, Bool.and_eq_true, decide_eq_true_eq] at hp
  simp only [asciiB, decide_eq_true_eq]
  omega

/-- Digit characters fit in one byte. -/
theorem digits_ascii (ds : List Nat) (h : ds.all (fun d => d < 10) = true) :
    (ds.map digitChar).all asciiB = true := by
  simp only [List.all_eq_true, decide_eq_true_eq] at h
  simp only [List.all_eq_true, List.mem_map]
  rintro c ⟨d, hd, rfl⟩
  have hd10 : d < 10 := h d hd
  simp only [asciiB, digitChar, decide_eq_true_eq]
  interval_cases d <;> decide

/-- A printed number literal is one-byte text. -/
theorem printNum_ascii (n : JNum) (hwf : wfNum n = true) :
    (printNum n).all asciiB = true := by
  simp only [wfNum, Bool.and_eq_true] at hwf
  show ((if n.neg then ['-'] else []) ++ n.intDigits.map digitChar ++
    (if n.fracDigits.isEmpty then [] else '.' :: n.fracDigits.map digitChar)).all
      asciiB = true
  refine asciiB_append _ _ (asciiB_append _ _ ?_ (digits_ascii _ hwf.1.2)) ?_
  · split
    · decide
    · decide
  · split
    · decide
    · exact asciiB_cons _ _ (by decide) (digits_ascii _ hwf.2)

mutual

/-- Serialised well-formed JSON is one-byte (ASCII) text, so
`.encode()` is character-by-character. -/
theorem printJson_ascii : ∀ (v : Json), wfJson v = true →
    (printJson v).all asciiB = true
  | .null, _ => by decide
  | .bool true, _ => by decide
  | .bool false, _ => by decide
  | .num n, hwf => printNum_ascii n hwf
  | .str s, hwf => by
    replace hwf : s.all plainChar = true := hwf
    show (quoteChar :: (s ++ [quoteChar])).all asciiB = true
    exact asciiB_cons _ _ (by decide)
      (asciiB_append _ _ (plain_ascii s hwf) (by decide))
  | .arr [], _ => by decide
  | .arr (x :: xs), hwf => by
    replace hwf : (wfJson x && wfList xs) = true := hwf
    simp only [Bool.and_eq_true] at hwf
    have h1 := printJson_ascii x hwf.1
    have h2 := printList_ascii xs hwf.2
    simp [printJson, List.all_cons, List.all_append, h1, h2]; decide
  | .obj [], _ => by decide
  | .obj ((k, v) :: rest), hwf => by
    replace hwf : ((k.all plainChar && wfJson v && wfFields rest) &&
      sortedKeys (((k, v) :: rest).map (fun kv => kv.1))) = true := hwf
    simp only [Bool.and_eq_true] at hwf
    have h1 := printJson_ascii v hwf.1.1.2
    have h2 := printFields_ascii rest hwf.1.2
    have h3 := plain_ascii k hwf.1.1.1
    simp [printJson, List.all_cons, List.all_append, h1, h2, h3]; decide
termination_by v => sizeJ v
decreasing_by all_goals (simp [sizeJ, sizeL, sizeF]; try omega)

/-- Serialised element lists are one-byte text. -/
theorem printList_ascii : ∀ (xs : List Json), wfList xs = true →
    (printList xs).all asciiB = true
  | [], _ => by decide
  | x :: xs, hwf => by
    replace hwf : (wfJson x && wfList xs) = true := hwf
    simp only [Bool.and_eq_true] at hwf
    show (',' :: ' ' :: (printJson x ++ printList xs)).all asciiB = true
    exact asciiB_cons _ _ (by decide) (asciiB_cons _ _ (by decide)
      (asciiB_append _ _ (printJson_ascii x hwf.1) (printList_ascii xs hwf.2)))
termination_by xs => sizeL xs
decreasing_by all_goals (simp [sizeJ, sizeL, sizeF]; try omega)

/-- Serialised field lists are one-byte text. -/
theorem printFields_ascii : ∀ (kvs : List (List Char × Json)),
    wfFields kvs = true → (printFields kvs).all asciiB = true
  | [], _ => by decide
  | (k, v) :: rest, hwf => by
    replace hwf : (k.all plainChar && wfJson v && wfFields rest) = true := hwf
    simp only [Bool.and_eq_true] at hwf
    have h1 := printJson_ascii v hwf.1.2
    have h2 := printFields_ascii rest hwf.2
    have h3 := plain_ascii k hwf.1.1
    simp [printFields, List.all_cons, List.all_append, h1, h2, h3]; decide
termination_by kvs => sizeF kvs
decreasing_by all_goals (simp [sizeJ, sizeL, sizeF]; try omega)

end

/-- Bytes of one-byte text are below 256. -/
theorem strToBytes_lt256 (s : List Char) (h : s.all asciiB = true) :
    ∀ b ∈ strToBytes s, b < 256 := by
  simp only [List.all_eq_true, asciiB, decide_eq_true_eq] at h
  intro b hb
  simp only [strToBytes, List.mem_map] at hb
  obtain ⟨c, hc, rfl⟩ := hb
  exact h c hc

/-- A well-formed number prints to at least one character. -/
theorem printNum_length_pos (n : JNum) (hwf : wfNum n = true) :
    1 ≤ (printNum n).length := by
  have h1 : 1 ≤ n.intDigits.length := by
    simp only [wfNum, Bool.and_eq_true] at hwf
    have hne := hwf.1.1
    cases hd : n.intDigits with
    | nil => rw [hd] at hne; simp at hne
    | cons a t => simp
  simp only [printNum, List.length_append, List.length_map]
  omega

mutual

/-- The parser-fuel bound: the structural size of a well-formed value
is at most twice its printed length. -/
theorem sizeJ_le_print : ∀ (v : Json), wfJson v = true →
    sizeJ v ≤ 2 * (printJson v).length
  | .null, _ => by decide
  | .bool true, _ => by decide
  | .bool false, _ => by decide
  | .num n, hwf => by
    have h1 : 1 ≤ (printNum n).length := printNum_length_pos n hwf
    show sizeJ (.num n) ≤ 2 * (printNum n).length
    simp only [sizeJ]
    omega
  | .str s, _ => by
    show sizeJ (.str s) ≤ 2 * (quoteChar :: (s ++ [quoteChar])).length
    simp only [sizeJ, List.length_cons, List.length_append]
    omega
  | .arr [], _ => by decide
  | .arr (x :: xs), hwf => by
    replace hwf : (wfJson x && wfList xs) = true := hwf
    simp only [Bool.and_eq_true] at hwf
    have hx := sizeJ_le_print x hwf.1
    have hxs := sizeL_le_print xs hwf.2
    simp only [sizeJ, sizeL, printJson, List.length_cons, List.length_append]
    omega
  | .obj [], _ => by decide
  | .obj ((k, v) :: rest), hwf => by
    replace hwf : ((k.all plainChar && wfJson v && wfFields rest) &&
      sortedKeys (((k, v) :: rest).map (fun kv => kv.1))) = true := hwf
    simp only [Bool.and_eq_true] at hwf
    have hv := sizeJ_le_print v hwf.1.1.2
    have hr := sizeF_le_print rest hwf.1.2
    simp only [sizeJ, sizeF, printJson, List.length_cons, List.length_append]
    omega
termination_by v => sizeJ v
decreasing_by all_goals (simp [sizeJ, sizeL, sizeF]; try omega)

/-- Size bound for element lists (an empty tail prints to nothing,
hence the `+ 1`). -/
theorem sizeL_le_print : ∀ (xs : List Json), wfList xs = true →
    sizeL xs ≤ 2 * (printList xs).length + 1
  | [], _ => by decide
  | x :: xs, hwf => by
    replace hwf : (wfJson x && wfList xs) = true := hwf
    simp only [Bool.and_eq_true] at hwf
    have hx := sizeJ_le_print x hwf.1
    have hxs := sizeL_le_print xs hwf.2
    simp only [sizeL, printList, List.length_cons, List.length_append]
    omega
termination_by xs => sizeL xs
decreasing_by all_goals (simp [sizeJ, sizeL, sizeF]; try omega)

/-- Size bound for field lists. -/
theorem sizeF_le_print : ∀ (kvs : List (List Char × Json)),
    wfFields kvs = true → sizeF kvs ≤ 2 * (printFields kvs).length + 1
  | [], _ => by decide
  | (k, v) :: rest, hwf => by
    replace hwf : (k.all plainChar && wfJson v && wfFields rest) = true := hwf
    simp only [Bool.and_eq_true] at hwf
    have hv := sizeJ_le_print v hwf.1.2
    have hr := sizeF_le_print rest hwf.2
    simp only [sizeF, printFields, List.length_cons, List.length_append]
    omega
termination_by kvs => sizeF kvs
decreasing_by all_goals (simp [sizeJ, sizeL, sizeF]; try omega)

end

/-- `json.loads`: parse a complete document (the fuel `2·length + 1`
dominates the structural size of anything the text can denote, by
`sizeJ_le_print`); trailing non-whitespace is rejected. -/
def jsonLoads (s : List Char) : Option Json :=
  match parseJson (2 * s.length + 1) s with
  | some (v, rest) => if skipWs rest = [] then some v else none
  | none => none

/-- `json.loads` inverts `json.dumps` on well-formed payloads. -/
theorem jsonLoads_print (v : Json) (hwf : wfJson v = true) :
    jsonLoads (printJson v) = some v := by
  have hfuel : sizeJ v ≤ 2 * (printJson v).length + 1 := by
    have := sizeJ_le_print v hwf
    omega
  have h := parseJson_print v (2 * (printJson v).length + 1) [] hwf hfuel rfl
  rw [List.append_nil] at h
  simp only [jsonLoads, h]
  rfl

/-- Encoding and decoding agree on the alphabet (all 64 values). -/
theorem b64Val_b64Char (n : Nat) (h : n < 64) : b64Val (b64Char n) = some n := by
  interval_cases n <;> decide

/-- Alphabet characters are never the padding character. -/
theorem b64Char_ne_pad (n : Nat) (h : n < 64) : ¬ b64Char n = '=' := by
  interval_cases n <;> decide

/-- Decoding a doubly padded final group. -/
theorem b64DecodeBytes_pad2 (v0 v1 : Nat) (h0 : v0 < 64) (h1 : v1 < 64) :
    b64DecodeBytes [b64Char v0, b64Char v1, '=', '='] =
      some [v0 * 4 + v1 / 16] := by
  simp [b64DecodeBytes, b64Val_b64Char v0 h0, b64Val_b64Char v1 h1]

/-- Decoding a singly padded final group. -/
theorem b64DecodeBytes_pad1 (v0 v1 v2 : Nat) (h0 : v0 < 64) (h1 : v1 < 64)
    (h2 : v2 < 64) :
    b64DecodeBytes [b64Char v0, b64Char v1, b64Char v2, '='] =
      some [v0 * 4 + v1 / 16, v1 % 16 * 16 + v2 / 4] := by
  simp [b64DecodeBytes, b64Val_b64Char v0 h0, b64Val_b64Char v1 h1,
    b64Val_b64Char v2 h2, b64Char_ne_pad v2 h2]

/-- Decoding an unpadded group followed by more input. -/
theorem b64DecodeBytes_quad (v0 v1 v2 v3 : Nat) (rest : List Char)
    (h0 : v0 < 64) (h1 : v1 < 64) (h2 : v2 < 64) (h3 : v3 < 64) :
    b64DecodeBytes (b64Char v0 :: b64Char v1 :: b64Char v2 :: b64Char v3 ::
      rest) =
      match b64DecodeBytes rest with
      | some bs => some ((v0 * 4 + v1 / 16) :: (v1 % 16 * 16 + v2 / 4) ::
          (v2 % 4 * 64 + v3) :: bs)
      | none => none := by
  simp [b64DecodeBytes, b64Val_b64Char v0 h0, b64Val_b64Char v1 h1,
    b64Val_b64Char v2 h2, b64Val_b64Char v3 h3, b64Char_ne_pad v2 h2,
    b64Char_ne_pad v3 h3]

/-- `base64.b64decode` inverts `base64.b64encode` on byte lists. -/
theorem b64_roundtrip : ∀ (bs : List Nat), (∀ b ∈ bs, b < 256) →
    b64DecodeBytes (b64EncodeBytes bs) = some bs
  | [], _ => rfl
  | [b0], h => by
    have h0 : b0 < 256 := h b0 (by simp)
    show b64DecodeBytes [b64Char (b0 / 4), b64Char (b0 % 4 * 16), '=', '='] =
      some [b0]
    rw [b64DecodeBytes_pad2 _ _ (by omega) (by omega)]
    have e : b0 / 4 * 4 + b0 % 4 * 16 / 16 = b0 := by omega
    rw [e]
  | [b0, b1], h => by
    have h0 : b0 < 256 := h b0 (by simp)
    have h1 : b1 < 256 := h b1 (by simp)
    show b64DecodeBytes [b64Char (b0 / 4), b64Char (b0 % 4 * 16 + b1 / 16),
      b64Char (b1 % 16 * 4), '='] = some [b0, b1]
    rw [b64DecodeBytes_pad1 _ _ _ (by omega) (by omega) (by omega)]
    have e0 : b0 / 4 * 4 + (b0 % 4 * 16 + b1 / 16) / 16 = b0 := by omega
    have e1 : (b0 % 4 * 16 + b1 / 16) % 16 * 16 + b1 % 16 * 4 / 4 = b1 := by
      omega
    rw [e0, e1]
  | b0 :: b1 :: b2 :: bs, h => by
    have h0 : b0 < 256 := h b0 (by simp)
    have h1 : b1 < 256 := h b1 (by simp)
    have h2 : b2 < 256 := h b2 (by simp)
    show b64DecodeBytes (b64Char (b0 / 4) :: b64Char (b0 % 4 * 16 + b1 / 16) ::
      b64Char (b1 % 16 * 4 + b2 / 64) :: b64Char (b2 % 64) ::
      b64EncodeBytes bs) = some (b0 :: b1 :: b2 :: bs)
    rw [b64DecodeBytes_quad _ _ _ _ _ (by omega) (by omega) (by omega)
      (by omega)]
    rw [b64_roundtrip bs (fun x hx => h x (by simp [hx]))]
    have e0 : b0 / 4 * 4 + (b0 % 4 * 16 + b1 / 16) / 16 = b0 := by omega
    have e1 : (b0 % 4 * 16 + b1 / 16) % 16 * 16 +
        (b1 % 16 * 4 + b2 / 64) / 4 = b1 := by omega
    have e2 : (b1 % 16 * 4 + b2 / 64) % 4 * 64 + b2 % 64 = b2 := by omega
    rw [e0, e1, e2]
termination_by bs => bs.length
decreasing_by simp; omega

/-- Byte-wise xor of two equal-length byte strings (the CTR-mode
combination step). -/
def xorBytes : List Nat → List Nat → List Nat
  | [], _ => []
  | _ :: _, [] => []
  | a :: as, b :: bs => (a ^^^ b) :: xorBytes as bs

/-- Models the keystream the external `cryptography` library's AES-GCM
implementation derives from (key, nonce) in CTR mode.  The block
cipher itself is third-party library code, not part of this
repository; the claims settled here depend only on the keystream being
a deterministic byte function of (key, nonce, position), which this
model is. -/
def aesKeystream (key nonce : List Nat) (n : Nat) : List Nat :=
  (List.range n).map (fun i =>
    (key.foldl (fun a b => (a * 131 + b) % 256) 0 +
     nonce.foldl (fun a b => (a * 193 + b) % 256) 0 + 89 * i) % 256)

/-- Models the 16-byte GCM authentication tag: a deterministic byte
function of (key, nonce, ciphertext), as the external library's GHASH
construction is. -/
def gcmTag (key nonce ct : List Nat) : List Nat :=
  (List.range 16).map (fun i =>
    (ct.foldl (fun a b => (a * 31 + b) % 256) i +
     key.foldl (fun a b => (a * 131 + b) % 256) 0 +
     nonce.foldl (fun a b => (a * 193 + b) % 256) 0) % 256)

/-- `AESGCM.encrypt(nonce, data, None)`: CTR-encrypted data followed
by the 16-byte authentication tag. -/
def aesgcmEncrypt (key nonce pt : List Nat) : List Nat :=
  xorBytes pt (aesKeystream key nonce pt.length) ++
    gcmTag key nonce (xorBytes pt (aesKeystream key nonce pt.length))

/-- `AESGCM.decrypt(nonce, ct, None)`: split off the trailing 16-byte
tag, verify it, and undo the CTR xor; `none` models the
`InvalidTag`/`ValueError` failure. -/
def aesgcmDecrypt (key nonce ct : List Nat) : Option (List Nat) :=
  if ct.length < 16 then none
  else if ct.drop (ct.length - 16) =
      gcmTag key nonce (ct.take (ct.length - 16)) then
    some (xorBytes (ct.take (ct.length - 16))
      (aesKeystream key nonce (ct.take (ct.length - 16)).length))
  else none

/-- Taking the length of the left part of an append returns it. -/
theorem take_len_append (a b : List Nat) : (a ++ b).take a.length = a := by
  induction a with
  | nil => simp
  | cons x t ih => simp [ih]

/-- Dropping the length of the left part of an append leaves the right
part. -/
theorem drop_len_append (a b : List Nat) : (a ++ b).drop a.length = b := by
  induction a with
  | nil => simp
  | cons x t ih => simp [ih]

/-- The keystream has the requested length. -/
theorem aesKeystream_length (key nonce : List Nat) (n : Nat) :
    (aesKeystream key nonce n).length = n := by
  simp [aesKeystream]

/-- The tag is 16 bytes. -/
theorem gcmTag_length (key nonce ct : List Nat) :
    (gcmTag key nonce ct).length = 16 := by
  simp [gcmTag]

/-- Xor against an at-least-as-long keystream preserves length. -/
theorem xorBytes_length : ∀ (as bs : List Nat), as.length ≤ bs.length →
    (xorBytes as bs).length = as.length
  | [], _, _ => rfl
  | _ :: _, [], h => by simp at h
  | a :: as, b :: bs, h => by
    simp only [xorBytes, List.length_cons] at h ⊢
    rw [xorBytes_length as bs (by omega)]

/-- Xor with the same keystream twice is the identity. -/
theorem xorBytes_cancel : ∀ (as bs : List Nat), as.length ≤ bs.length →
    xorBytes (xorBytes as bs) bs = as
  | [], _, _ => rfl
  | _ :: _, [], h => by simp at h
  | a :: as, b :: bs, h => by
    simp only [List.length_cons] at h
    show ((a ^^^ b) ^^^ b) :: xorBytes (xorBytes as bs) bs = a :: as
    rw [xorBytes_cancel as bs (by omega), Nat.xor_assoc, Nat.xor_self,
      Nat.xor_zero]

/-- Decryption inverts encryption under the same key and nonce (GCM
round trip at the byte level). -/
theorem aesgcm_roundtrip (key nonce pt : List Nat) :
    aesgcmDecrypt key nonce (aesgcmEncrypt key nonce pt) = some pt := by
  have hks : pt.length ≤ (aesKeystream key nonce pt.length).length := by
    rw [aesKeystream_length]
  have hct : (xorBytes pt (aesKeystream key nonce pt.length)).length =
      pt.length := xorBytes_length _ _ hks
  simp only [aesgcmEncrypt, aesgcmDecrypt]
  rw [if_neg (by rw [List.length_append, gcmTag_length]; omega)]
  have hidx : (xorBytes pt (aesKeystream key nonce pt.length) ++
      gcmTag key nonce (xorBytes pt (aesKeystream key nonce pt.length))).length
      - 16 = (xorBytes pt (aesKeystream key nonce pt.length)).length := by
    rw [List.length_append, gcmTag_length]
    omega
  rw [hidx, drop_len_append, take_len_append, if_pos rfl, hct]
  rw [xorBytes_cancel pt _ hks]

/-- Xor of byte strings stays below 256. -/
theorem xorBytes_lt256 : ∀ (as bs : List Nat), (∀ a ∈ as, a < 256) →
    (∀ b ∈ bs, b < 256) → ∀ x ∈ xorBytes as bs, x < 256
  | [], _, _, _ => by intro x hx; simp [xorBytes] at hx
  | _ :: _, [], _, _ => by intro x hx; simp [xorBytes] at hx
  | a :: as, b :: bs, ha, hb => by
    intro x hx
    replace hx : x ∈ (a ^^^ b) :: xorBytes as bs := hx
    rw [List.mem_cons] at hx
    rcases hx with rfl | hx
    · have h1 : a < 2 ^ 8 := ha a (by simp)
      have h2 : b < 2 ^ 8 := hb b (by simp)
      exact Nat.xor_lt_two_pow h1 h2
    · exact xorBytes_lt256 as bs (fun y hy => ha y (by simp [hy]))
        (fun y hy => hb y (by simp [hy])) x hx

/-- Keystream bytes are below 256. -/
theorem aesKeystream_lt256 (key nonce : List Nat) (n : Nat) :
    ∀ b ∈ aesKeystream key nonce n, b < 256 := by
  intro b hb
  simp only [aesKeystream, List.mem_map] at hb
  obtain ⟨i, _, rfl⟩ := hb
  exact Nat.mod_lt _ (by norm_num)

/-- Tag bytes are below 256. -/
theorem gcmTag_lt256 (key nonce ct : List Nat) :
    ∀ b ∈ gcmTag key nonce ct, b < 256 := by
  intro b hb
  simp only [gcmTag, List.mem_map] at hb
  obtain ⟨i, _, rfl⟩ := hb
  exact Nat.mod_lt _ (by norm_num)

/-- Ciphertext bytes are below 256 whenever the plaintext's are. -/
theorem aesgcmEncrypt_lt256 (key nonce pt : List Nat)
    (hp : ∀ b ∈ pt, b < 256) :
    ∀ b ∈ aesgcmEncrypt key nonce pt, b < 256 := by
  intro b hb
  simp only [aesgcmEncrypt, List.mem_append] at hb
  rcases hb with hb | hb
  · exact xorBytes_lt256 _ _ hp (aesKeystream_lt256 _ _ _) b hb
  · exact gcmTag_lt256 _ _ _ b hb

/-- The dictionary `encrypt_model_update` returns: base64 ciphertext,
base64 nonce, and the algorithm label. -/
structure EncPackage where
  ciphertext : List Char
  nonce : List Char
  algorithm : List Char

/-- `SecureSync.encrypt_model_update`: serialise with
`json.dumps(model_data, sort_keys=True).encode()`, AES-GCM-encrypt
under a fresh 12-byte nonce (the nondeterministic
`secrets.token_bytes(12)` is passed as the `nonce` argument), and
base64 both ciphertext and nonce. -/
def encrypt_model_update (key nonce : List Nat) (model_data : Json) :
    EncPackage :=
  { ciphertext := b64EncodeBytes (aesgcmEncrypt key nonce
      (strToBytes (printJson model_data)))
    nonce := b64EncodeBytes nonce
    algorithm := "AES-GCM-256".data }

/-- `SecureSync.decrypt_model_update`: base64-decode ciphertext and
nonce, AES-GCM-decrypt, and `json.loads` the plaintext; `none` models
the wrapping `ValueError` on any failure. -/
def decrypt_model_update (key : List Nat) (pkg : EncPackage) : Option Json :=
  match b64DecodeBytes pkg.ciphertext, b64DecodeBytes pkg.nonce with
  | some ct, some nonce =>
    match aesgcmDecrypt key nonce ct with
    | some pt => jsonLoads (bytesToStr pt)
    | none => none
  | _, _ => none

/-- **C2.**  For every well-formed ModelWeights payload `w` (a
JSON-serialisable dictionary: canonical numbers, plain-ASCII strings,
key-sorted objects) and every 12-byte-ranged nonce, decrypting the
result of encrypting `w` with the same key returns exactly `w`, field
for field. -/
theorem decrypt_encrypt_roundtrip (key nonce : List Nat) (w : Json)
    (hwf : wfJson w = true) (hn : ∀ b ∈ nonce, b < 256) :
    decrypt_model_update key (encrypt_model_update key nonce w) = some w := by
  have hct : ∀ b ∈ aesgcmEncrypt key nonce (strToBytes (printJson w)),
      b < 256 :=
    aesgcmEncrypt_lt256 _ _ _ (strToBytes_lt256 _ (printJson_ascii w hwf))
  simp only [decrypt_model_update, encrypt_model_update]
  rw [b64_roundtrip _ hct, b64_roundtrip _ hn]
  show (match aesgcmDecrypt key nonce (aesgcmEncrypt key nonce
      (strToBytes (printJson w))) with
    | some pt => jsonLoads (bytesToStr pt)
    | none => none) = some w
  rw [aesgcm_roundtrip]
  show jsonLoads (bytesToStr (strToBytes (printJson w))) = some w
  rw [bytesToStr_strToBytes]
  exact jsonLoads_print w hwf

/-- A small concrete ModelWeights-like payload:
`{"anomaly_threshold": 0.5, "spending_patterns": [1, 0.25]}`. -/
def sampleWeightsJson : Json :=
  .obj [("anomaly_threshold".data, .num ⟨false, [0], [5]⟩),
        ("spending_patterns".data, .arr [.num ⟨false, [1], []⟩,
          .num ⟨false, [0], [2, 5]⟩])]

/-- A concrete 32-byte key. -/
def sampleSyncKey : List Nat := List.replicate 32 7

/-- A concrete 12-byte nonce. -/
def sampleSyncNonce : List Nat := List.replicate 12 3

/-- **C2 (witness).**  The round trip on the concrete payload under
the concrete key and nonce. -/
theorem decrypt_encrypt_roundtrip_witness :
    wfJson sampleWeightsJson = true ∧
    (∀ b ∈ sampleSyncNonce, b < 256) ∧
    decrypt_model_update sampleSyncKey
      (encrypt_model_update sampleSyncKey sampleSyncNonce sampleWeightsJson) =
      some sampleWeightsJson :=
  ⟨by decide, by decide,
    decrypt_encrypt_roundtrip sampleSyncKey sampleSyncNonce sampleWeightsJson
      (by decide) (by decide)⟩

end Muneem
